import Mathlib

/-!
Verification of the cardinality-constraint encoders of the varisat-utils
crate (src/lib.rs): the recursive commander encoding for exactly-one /
at-most-one constraints, the comparator-gate / sorting-network
construction, and the exactly-k dispatcher.  The Rust code is shallowly
embedded: a CNF formula is a fresh-variable counter plus an append-only
clause list, and each Rust function becomes a state-passing Lean function
on that structure.  Recursive functions take an explicit fuel argument
(initialised so that it never runs out), which keeps them structurally
recursive and kernel-computable.
-/

set_option autoImplicit false

/-- A literal: a boolean variable index plus a polarity (varisat Lit). -/
structure Lit where
  var : Nat
  pos : Bool
deriving DecidableEq, Repr

/-- Default literal used for the (never hit in the modelled runs) out-of-bounds
reads that would panic in Rust. -/
def defaultLit : Lit := ⟨0, true⟩

/-- Literal negation (the Rust prefix exclamation operator on varisat Lit). -/
def Lit.not (l : Lit) : Lit := ⟨l.var, !l.pos⟩

/-- A CNF formula: a counter for fresh-variable allocation plus an
append-only list of clauses (varisat CnfFormula, as used by this crate). -/
structure CnfFormula where
  varCount : Nat
  clauses : List (List Lit)
deriving DecidableEq, Repr

/-- Allocate a fresh variable and return its positive literal (new_lit). -/
def CnfFormula.newLit (F : CnfFormula) : Lit × CnfFormula :=
  (⟨F.varCount, true⟩, ⟨F.varCount + 1, F.clauses⟩)

/-- Append one clause (add_clause). -/
def CnfFormula.addClause (F : CnfFormula) (c : List Lit) : CnfFormula :=
  ⟨F.varCount, F.clauses ++ [c]⟩

/-- Append a list of clauses in order. -/
def addClauses (F : CnfFormula) (L : List (List Lit)) : CnfFormula :=
  L.foldl CnfFormula.addClause F

/-- Value of a literal under an assignment of the variables. -/
def evalLit (σ : Nat → Bool) (l : Lit) : Bool := if l.pos then σ l.var else !(σ l.var)

/-- A clause is satisfied when some literal in it is true. -/
def evalClause (σ : Nat → Bool) (c : List Lit) : Bool := c.any (evalLit σ)

/-- All clauses of a list are satisfied. -/
def satClauses (σ : Nat → Bool) (L : List (List Lit)) : Prop :=
  ∀ c ∈ L, evalClause σ c = true

instance (σ : Nat → Bool) (L : List (List Lit)) : Decidable (satClauses σ L) := by
  unfold satClauses; infer_instance

/-- An assignment satisfies a formula when it satisfies every clause. -/
def satisfies (σ : Nat → Bool) (F : CnfFormula) : Prop := satClauses σ F.clauses

instance (σ : Nat → Bool) (F : CnfFormula) : Decidable (satisfies σ F) := by
  unfold satisfies; infer_instance

/-- A formula no assignment satisfies. -/
def unsat (F : CnfFormula) : Prop := ∀ σ : Nat → Bool, ¬ satisfies σ F

/-- Number of true literals of a list under an assignment. -/
def countTrue (σ : Nat → Bool) (l : List Lit) : Nat :=
  l.countP (fun t => evalLit σ t)

/-- Overwrite an assignment at one variable. -/
def update (σ : Nat → Bool) (n : Nat) (b : Bool) : Nat → Bool :=
  fun w => if w = n then b else σ w

/-- Two assignments agree on all variables below a bound. -/
def agreeBelow (m : Nat) (σ1 σ2 : Nat → Bool) : Prop := ∀ v, v < m → σ1 v = σ2 v

/-- All literals of all clauses of a list have variable index below a bound. -/
def clausesBelow (m : Nat) (L : List (List Lit)) : Prop :=
  ∀ c ∈ L, ∀ t ∈ c, t.var < m

/-! ## The commander encoding (commander_exactly_one, lines 6-34) -/

/-- Chunk size used by commander_exactly_one: div_ceil(numvar, 3). -/
def chunkSize (n : Nat) : Nat := (n + 2) / 3

/-- Fueled worker for slice::chunks: split a list into consecutive pieces of
size k, the last piece possibly shorter. -/
def chunksF : Nat → Nat → List Lit → List (List Lit)
  | 0, _, _ => []
  | _, _, [] => []
  | fuel + 1, k, l => l.take k :: chunksF fuel k (l.drop k)

/-- slice::chunks(k) as used on the input-variable list. -/
def chunksOf (k : Nat) (l : List Lit) : List (List Lit) := chunksF l.length k l

/-- The pairwise mutual-exclusion clauses of one commander level: for every
i and every j below i, the clause (NOT vars-i OR NOT vars-j) (lines 20-25). -/
def pairwiseClauses (vars : List Lit) : List (List Lit) :=
  ((List.range vars.length).map (fun i =>
    (List.range i).map (fun j =>
      [Lit.not (vars.getD i defaultLit), Lit.not (vars.getD j defaultLit)]))).flatten

/-- The clauses (commander OR NOT v) for every v of the level (lines 29-32). -/
def implicationClauses (commander : Lit) (vars : List Lit) : List (List Lit) :=
  vars.map (fun v => [commander, v.not])

/-- One direct commander level (lines 19-33): allocate the commander, emit the
pairwise exclusions, the clause (vars OR NOT commander), and the implications
(commander OR NOT v). -/
def encodeLevel (F : CnfFormula) (vars : List Lit) : Lit × CnfFormula :=
  let p := F.newLit
  let commander := p.1
  let F1 := addClauses p.2 (pairwiseClauses vars)
  let F2 := F1.addClause (vars ++ [commander.not])
  let F3 := addClauses F2 (implicationClauses commander vars)
  (commander, F3)

/-- One iteration of the chunk loop (lines 14-16): encode a chunk recursively
and push its commander. -/
def commanderStep (rec : CnfFormula → List Lit → Lit × CnfFormula)
    (acc : List Lit × CnfFormula) (ch : List Lit) : List Lit × CnfFormula :=
  let s := rec acc.2 ch
  (acc.1 ++ [s.1], s.2)

/-- Fueled commander_exactly_one: below 6 inputs the list itself is the level,
otherwise each chunk of size div_ceil(n, 3) is encoded recursively and the
chunk commanders form the level.  The fuel only bounds the recursion depth;
the wrapper passes enough for the fallback never to fire. -/
def commanderExactlyOneF : Nat → CnfFormula → List Lit → Lit × CnfFormula
  | 0, F, inputs => encodeLevel F inputs
  | fuel + 1, F, inputs =>
    if inputs.length < 6 then encodeLevel F inputs
    else
      let r := (chunksOf (chunkSize inputs.length) inputs).foldl
        (commanderStep (commanderExactlyOneF fuel)) ([], F)
      encodeLevel r.2 r.1

/-- commander_exactly_one (lines 6-34). -/
def commanderExactlyOne (F : CnfFormula) (inputs : List Lit) : Lit × CnfFormula :=
  commanderExactlyOneF (inputs.length + 1) F inputs

/-- add_exactly_one (lines 37-40): commander encoding plus the unit clause
forcing the top-level commander. -/
def addExactlyOne (F : CnfFormula) (vars : List Lit) : CnfFormula :=
  let r := commanderExactlyOne F vars
  r.2.addClause [r.1]

/-- add_at_most_one (lines 43-48): commander encoding plus, for every input
literal, the clause (commander OR NOT that literal). -/
def addAtMostOne (F : CnfFormula) (vars : List Lit) : CnfFormula :=
  let r := commanderExactlyOne F vars
  addClauses r.2 (vars.map (fun v => [r.1, v.not]))

/-! ## The sorting network (sort_swap and make_sorting_network, lines 50-173) -/

/-- sort_swap (lines 50-61): allocate two fresh output literals and emit the
eight clauses tying them to the two inputs. -/
def sortSwap (F : CnfFormula) (in1 in2 : Lit) : (Lit × Lit) × CnfFormula :=
  let p1 := F.newLit
  let out1 := p1.1
  let p2 := p1.2.newLit
  let out2 := p2.1
  let F2 := ((((((((p2.2.addClause [in1, in2, out1.not]).addClause
    [in1, in2, out2.not]).addClause
    [in1, in2.not, out1.not]).addClause
    [in1, in2.not, out2]).addClause
    [in1.not, in2, out1.not]).addClause
    [in1.not, in2, out2]).addClause
    [in1.not, in2.not, out1]).addClause
    [in1.not, in2.not, out2])
  ((out1, out2), F2)

/-- The hardcoded swap tables for sizes 0-7 of make_sorting_network
(lines 65-114); none for 8 and above. -/
def swapsFor : Nat → Option (List (Nat × Nat))
  | 0 => some []
  | 1 => some []
  | 2 => some [(0, 1)]
  | 3 => some [(0, 2), (0, 1), (1, 2)]
  | 4 => some [(0, 2), (1, 3), (0, 1), (2, 3), (1, 2)]
  | 5 => some [(0, 3), (1, 4), (0, 2), (1, 3), (0, 1), (2, 4), (1, 2), (3, 4), (2, 3)]
  | 6 => some [(0, 5), (1, 3), (2, 4), (1, 2), (3, 4), (0, 3), (2, 5), (0, 1), (2, 3),
      (4, 5), (1, 2), (3, 4)]
  | 7 => some [(0, 6), (2, 3), (4, 5), (0, 2), (1, 4), (3, 6), (0, 1), (2, 5), (3, 4),
      (1, 2), (4, 6), (2, 3), (4, 5), (1, 2), (3, 4), (5, 6)]
  | _ => none

/-- One comparator application at an index pair (lines 120-122 and 164-166):
sort_swap on the two positions, writing the outputs back in place. -/
def swapStep (acc : List Lit × CnfFormula) (sw : Nat × Nat) : List Lit × CnfFormula :=
  let r := sortSwap acc.2 (acc.1.getD sw.1 defaultLit) (acc.1.getD sw.2 defaultLit)
  ((acc.1.set sw.1 r.1.1).set sw.2 r.1.2, r.2)

/-- Run a swap table over the working array (lines 118-125). -/
def applySwaps (F : CnfFormula) (swaps : List (Nat × Nat)) (vars : List Lit) :
    List Lit × CnfFormula :=
  swaps.foldl swapStep (vars, F)

/-- The padding loop (lines 128-132): allocate the given number of fresh
literals, push each at the end and force each true by a unit clause. -/
def padTrue (F : CnfFormula) (vars : List Lit) : Nat → List Lit × CnfFormula
  | 0 => (vars, F)
  | c + 1 =>
    let p := F.newLit
    padTrue (p.2.addClause [p.1]) (vars ++ [p.1]) c

/-- Elements at odd positions (the odds filter of lines 143-147). -/
def oddIdx : List Lit → List Lit
  | [] => []
  | [_] => []
  | _ :: b :: rest => b :: oddIdx rest

/-- Elements at even positions (the evens filter of lines 148-152). -/
def evenIdx : List Lit → List Lit
  | [] => []
  | [a] => [a]
  | a :: _ :: rest => a :: evenIdx rest

/-- Alternate the two lists, evens first (lines 156-160). -/
def interleave : List Lit → List Lit → List Lit
  | e :: es, o :: os => e :: o :: interleave es os
  | _, _ => []

/-- The fix-up pass (lines 162-168): a comparator on (i, i+1) for every odd i
from 1 to length minus 2. -/
def finalPass (F : CnfFormula) (vars : List Lit) : List Lit × CnfFormula :=
  (List.range' 1 (vars.length - 2)).foldl
    (fun acc i => if i % 2 = 1 then swapStep acc (i, i + 1) else acc) (vars, F)

/-- padding_amount as computed on line 127: the input length modulo 4. -/
def paddingAmount (n : Nat) : Nat := n % 4

/-- Fueled make_sorting_network (lines 63-173): table-driven for lengths
0-7, otherwise pad by padding_amount forced-true literals, sort the right
and left halves, sort the odd- and even-position subsequences of their
concatenation, re-interleave, run the fix-up pass, and drop the last
padding_amount entries. -/
def makeSortingNetworkF : Nat → CnfFormula → List Lit → List Lit × CnfFormula
  | 0, F, vars => (vars, F)
  | fuel + 1, F, vars =>
    match swapsFor vars.length with
    | some swaps => applySwaps F swaps vars
    | none =>
      let pa := paddingAmount vars.length
      let p := padTrue F vars pa
      let right0 := p.1.drop (p.1.length / 2)
      let left0 := p.1.take (p.1.length / 2)
      let r := makeSortingNetworkF fuel p.2 right0
      let l := makeSortingNetworkF fuel r.2 left0
      let merged := l.1 ++ r.1
      let o := makeSortingNetworkF fuel l.2 (oddIdx merged)
      let e := makeSortingNetworkF fuel o.2 (evenIdx merged)
      let fp := finalPass e.2 (interleave e.1 o.1)
      (fp.1.take (fp.1.length - pa), fp.2)

/-- make_sorting_network (lines 63-173). -/
def makeSortingNetwork (F : CnfFormula) (vars : List Lit) : List Lit × CnfFormula :=
  makeSortingNetworkF (vars.length + 1) F vars

/-- exactly_k (lines 174-190).  The general branch is fallible in Rust: the
index computations vars.len() - k - 1 and vars.len() - k underflow or run out
of bounds when k exceeds the choices checked, and Rust panics; the model
returns none there. -/
def exactlyK (F : CnfFormula) (vars : List Lit) (k : Nat) : Option CnfFormula :=
  if k = 0 then some (addClauses F (vars.map (fun v => [v.not])))
  else if k = vars.length then some (addClauses F (vars.map (fun v => [v])))
  else if k = 1 then some (addExactlyOne F vars)
  else
    let r := makeSortingNetwork F vars
    if h : vars.length - k - 1 < r.1.length ∧ vars.length - k < r.1.length ∧
        k + 1 ≤ vars.length then
      some ((r.2.addClause [(r.1.get ⟨vars.length - k - 1, h.1⟩).not]).addClause
        [r.1.get ⟨vars.length - k, h.2.1⟩])
    else none

/-! ## Basic lemmas about the formula builder and the semantics -/

theorem addClause_clauses (F : CnfFormula) (c : List Lit) :
    (F.addClause c).clauses = F.clauses ++ [c] := rfl

theorem addClause_varCount (F : CnfFormula) (c : List Lit) :
    (F.addClause c).varCount = F.varCount := rfl

theorem addClauses_clauses (L : List (List Lit)) :
    ∀ F : CnfFormula, (addClauses F L).clauses = F.clauses ++ L := by
  induction L with
  | nil => intro F; simp [addClauses]
  | cons c L ih =>
    intro F
    simp [addClauses] at ih ⊢
    rw [ih (F.addClause c), addClause_clauses, List.append_assoc]
    rfl

theorem addClauses_varCount (L : List (List Lit)) :
    ∀ F : CnfFormula, (addClauses F L).varCount = F.varCount := by
  induction L with
  | nil => intro F; rfl
  | cons c L ih => intro F; simpa [addClauses] using ih (F.addClause c)

theorem evalLit_not (σ : Nat → Bool) (l : Lit) :
    evalLit σ l.not = !(evalLit σ l) := by
  cases l with
  | mk v p => cases p <;> simp [evalLit, Lit.not]

theorem satClauses_append (σ : Nat → Bool) (A B : List (List Lit)) :
    satClauses σ (A ++ B) ↔ satClauses σ A ∧ satClauses σ B := by
  simp [satClauses, List.mem_append, or_imp, forall_and]

theorem evalClause_congr (σ1 σ2 : Nat → Bool) (c : List Lit)
    (h : ∀ t ∈ c, σ1 t.var = σ2 t.var) : evalClause σ1 c = evalClause σ2 c := by
  induction c with
  | nil => rfl
  | cons t rest ih =>
    simp only [evalClause, List.any_cons] at ih ⊢
    have ht : evalLit σ1 t = evalLit σ2 t := by
      cases t with
      | mk v p => cases p <;> simp [evalLit, h _ (List.mem_cons_self _ _)]
    rw [ht, ih (fun s hs => h s (List.mem_cons_of_mem _ hs))]

theorem countTrue_congr (σ1 σ2 : Nat → Bool) (l : List Lit)
    (h : ∀ t ∈ l, σ1 t.var = σ2 t.var) : countTrue σ1 l = countTrue σ2 l := by
  simp only [countTrue]
  apply List.countP_congr
  intro t ht
  cases t with
  | mk v p => cases p <;> simp [evalLit, h _ ht]

theorem satClauses_congr (σ1 σ2 : Nat → Bool) (m : Nat) (L : List (List Lit))
    (hL : clausesBelow m L) (hag : agreeBelow m σ1 σ2) :
    satClauses σ1 L ↔ satClauses σ2 L := by
  constructor <;> intro h c hc
  · rw [← evalClause_congr σ1 σ2 c (fun t ht => hag t.var (hL c hc t ht))]
    exact h c hc
  · rw [evalClause_congr σ1 σ2 c (fun t ht => hag t.var (hL c hc t ht))]
    exact h c hc

theorem update_same (σ : Nat → Bool) (n : Nat) (b : Bool) : update σ n b n = b := by
  simp [update]

theorem update_ne (σ : Nat → Bool) (n w : Nat) (b : Bool) (h : w ≠ n) :
    update σ n b w = σ w := by
  simp [update, h]

theorem agreeBelow_update (σ : Nat → Bool) (n : Nat) (b : Bool) :
    agreeBelow n (update σ n b) σ := by
  intro v hv
  exact update_ne σ n v b (Nat.ne_of_lt hv)

theorem agreeBelow_mono (m1 m2 : Nat) (σ1 σ2 : Nat → Bool) (h : m1 ≤ m2)
    (hag : agreeBelow m2 σ1 σ2) : agreeBelow m1 σ1 σ2 :=
  fun v hv => hag v (Nat.lt_of_lt_of_le hv h)

theorem agreeBelow_trans (m : Nat) (σ1 σ2 σ3 : Nat → Bool)
    (h1 : agreeBelow m σ1 σ2) (h2 : agreeBelow m σ2 σ3) : agreeBelow m σ1 σ3 :=
  fun v hv => (h1 v hv).trans (h2 v hv)

theorem clausesBelow_mono (m1 m2 : Nat) (L : List (List Lit)) (h : m1 ≤ m2)
    (hL : clausesBelow m1 L) : clausesBelow m2 L :=
  fun c hc t ht => Nat.lt_of_lt_of_le (hL c hc t ht) h

theorem clausesBelow_append (m : Nat) (A B : List (List Lit)) :
    clausesBelow m (A ++ B) ↔ clausesBelow m A ∧ clausesBelow m B := by
  simp [clausesBelow, List.mem_append, or_imp, forall_and]

theorem countTrue_nil (σ : Nat → Bool) : countTrue σ [] = 0 := rfl

theorem countTrue_append (σ : Nat → Bool) (a b : List Lit) :
    countTrue σ (a ++ b) = countTrue σ a + countTrue σ b := by
  simp [countTrue, List.countP_append]

theorem countTrue_eq_zero (σ : Nat → Bool) (l : List Lit) :
    countTrue σ l = 0 ↔ ∀ t ∈ l, evalLit σ t = false := by
  simp [countTrue, List.countP_eq_zero]

theorem any_eq_countTrue_pos (σ : Nat → Bool) (l : List Lit) :
    l.any (evalLit σ) = decide (0 < countTrue σ l) := by
  rcases h : l.any (evalLit σ) with _ | _
  · rw [List.any_eq_false] at h
    have : countTrue σ l = 0 := (countTrue_eq_zero σ l).mpr (by
      intro t ht
      rcases h2 : evalLit σ t with _ | _
      · rfl
      · exact absurd h2 (h t ht))
    simp [this]
  · rw [List.any_eq_true] at h
    obtain ⟨t, ht, hev⟩ := h
    have : 0 < countTrue σ l := by
      simp only [countTrue]
      exact List.countP_pos_iff.mpr ⟨t, ht, by simpa using hev⟩
    simp [this]

/-! ## Counting lemmas -/

theorem countTrue_le_one_of_no_pair (σ : Nat → Bool) :
    ∀ l : List Lit,
      (∀ i j, j < i → i < l.length →
        ¬(evalLit σ (l.getD i defaultLit) = true ∧ evalLit σ (l.getD j defaultLit) = true)) →
      countTrue σ l ≤ 1 := by
  intro l
  induction l with
  | nil => intro _; simp [countTrue]
  | cons v rest ih =>
    intro h
    rcases hv : evalLit σ v with _ | _
    · have : countTrue σ (v :: rest) = countTrue σ rest := by
        simp [countTrue, List.countP_cons, hv]
      rw [this]
      apply ih
      intro i j hji hi
      have := h (i + 1) (j + 1) (Nat.succ_lt_succ hji) (by simpa using Nat.succ_lt_succ hi)
      simpa using this
    · have hrest : countTrue σ rest = 0 := by
        rw [countTrue_eq_zero]
        intro t ht
        obtain ⟨k, hk, hkt⟩ := List.getElem_of_mem ht
        rcases h2 : evalLit σ t with _ | _
        · rfl
        · exfalso
          apply h (k + 1) 0 (Nat.succ_pos k) (by simpa using Nat.succ_lt_succ hk)
          constructor
          · have hg : (v :: rest).getD (k + 1) defaultLit = t := by
              rw [List.getD_cons_succ, List.getD_eq_getElem _ _ hk]
              exact hkt
            rw [hg]; exact h2
          · simpa using hv
      have hc : countTrue σ (v :: rest) = countTrue σ rest + 1 := by
        simp [countTrue, List.countP_cons, hv]
      rw [hc, hrest]

theorem two_le_countTrue (σ : Nat → Bool) :
    ∀ (l : List Lit) (i j : Nat), j < i → i < l.length →
      evalLit σ (l.getD i defaultLit) = true → evalLit σ (l.getD j defaultLit) = true →
      2 ≤ countTrue σ l := by
  intro l
  induction l with
  | nil => intro i j _ hi; simp at hi
  | cons v rest ih =>
    intro i j hji hi hvi hvj
    match i, j with
    | i + 1, 0 =>
      simp only [List.getD_cons_succ] at hvi
      simp only [List.getD_cons_zero] at hvj
      have h1 : 1 ≤ countTrue σ rest := by
        have hlt : i < rest.length := by simpa using Nat.lt_of_succ_lt_succ hi
        have hmem : rest.getD i defaultLit ∈ rest := by
          rw [List.getD_eq_getElem _ _ hlt]
          exact List.getElem_mem hlt
        simp only [countTrue]
        exact List.countP_pos_iff.mpr ⟨_, hmem, by simpa using hvi⟩
      have hc : countTrue σ (v :: rest) = countTrue σ rest + 1 := by
        simp [countTrue, List.countP_cons, hvj]
      omega
    | i + 1, j + 1 =>
      simp only [List.getD_cons_succ] at hvi hvj
      have h2 := ih i j (Nat.lt_of_succ_lt_succ hji)
        (by simpa using Nat.lt_of_succ_lt_succ hi) hvi hvj
      have hc : countTrue σ rest ≤ countTrue σ (v :: rest) := by
        simp only [countTrue, List.countP_cons]
        omega
      omega

/-! ## The pairwise-exclusion clauses -/

theorem pairwise_mem (vars : List Lit) (i j : Nat) (hji : j < i) (hi : i < vars.length) :
    [Lit.not (vars.getD i defaultLit), Lit.not (vars.getD j defaultLit)] ∈
      pairwiseClauses vars := by
  simp only [pairwiseClauses, List.mem_flatten, List.mem_map]
  refine ⟨(List.range i).map (fun j =>
    [Lit.not (vars.getD i defaultLit), Lit.not (vars.getD j defaultLit)]), ⟨i, ?_, rfl⟩, ?_⟩
  · exact List.mem_range.mpr hi
  · exact List.mem_map.mpr ⟨j, List.mem_range.mpr hji, rfl⟩

theorem pairwise_mem_inv (vars : List Lit) (c : List Lit) (hc : c ∈ pairwiseClauses vars) :
    ∃ i j, j < i ∧ i < vars.length ∧
      c = [Lit.not (vars.getD i defaultLit), Lit.not (vars.getD j defaultLit)] := by
  simp only [pairwiseClauses, List.mem_flatten, List.mem_map] at hc
  obtain ⟨L, ⟨i, hi, rfl⟩, hcL⟩ := hc
  obtain ⟨j, hj, rfl⟩ := List.mem_map.mp hcL
  exact ⟨i, j, List.mem_range.mp hj, List.mem_range.mp hi, rfl⟩

theorem pairwise_sound (σ : Nat → Bool) (vars : List Lit)
    (h : satClauses σ (pairwiseClauses vars)) : countTrue σ vars ≤ 1 := by
  apply countTrue_le_one_of_no_pair
  intro i j hji hi hand
  have hcl := h _ (pairwise_mem vars i j hji hi)
  simp only [evalClause, List.any_cons, List.any_nil, evalLit_not, hand.1, hand.2] at hcl
  simp at hcl

theorem pairwise_complete (σ : Nat → Bool) (vars : List Lit)
    (h : countTrue σ vars ≤ 1) : satClauses σ (pairwiseClauses vars) := by
  intro c hc
  obtain ⟨i, j, hji, hi, rfl⟩ := pairwise_mem_inv vars c hc
  simp only [evalClause, List.any_cons, List.any_nil, evalLit_not]
  rcases hvi : evalLit σ (vars.getD i defaultLit) with _ | _
  · simp
  · rcases hvj : evalLit σ (vars.getD j defaultLit) with _ | _
    · simp
    · exact absurd (two_le_countTrue σ vars i j hji hi hvi hvj) (by omega)

/-! ## One commander level -/

/-- The clauses emitted by one direct commander level with commander variable n. -/
def levelClauses (n : Nat) (vars : List Lit) : List (List Lit) :=
  pairwiseClauses vars ++ [vars ++ [Lit.not ⟨n, true⟩]] ++
    implicationClauses ⟨n, true⟩ vars

theorem encodeLevel_eq (F : CnfFormula) (vars : List Lit) :
    encodeLevel F vars =
      (⟨F.varCount, true⟩,
       ⟨F.varCount + 1, F.clauses ++ levelClauses F.varCount vars⟩) := by
  simp only [encodeLevel, CnfFormula.newLit, levelClauses]
  have h1 : addClauses ⟨F.varCount + 1, F.clauses⟩ (pairwiseClauses vars) =
      ⟨F.varCount + 1, F.clauses ++ pairwiseClauses vars⟩ := by
    have := addClauses_clauses (pairwiseClauses vars) ⟨F.varCount + 1, F.clauses⟩
    have h2 := addClauses_varCount (pairwiseClauses vars) ⟨F.varCount + 1, F.clauses⟩
    cases h3 : addClauses ⟨F.varCount + 1, F.clauses⟩ (pairwiseClauses vars)
    simp_all
  rw [h1]
  have h4 : ∀ (G : CnfFormula) (L : List (List Lit)),
      addClauses G L = ⟨G.varCount, G.clauses ++ L⟩ := by
    intro G L
    have := addClauses_clauses L G
    have h2 := addClauses_varCount L G
    cases h3 : addClauses G L
    simp_all
  simp [CnfFormula.addClause, h4, List.append_assoc]

theorem any_congr (σ1 σ2 : Nat → Bool) (l : List Lit)
    (h : ∀ t ∈ l, evalLit σ1 t = evalLit σ2 t) :
    l.any (evalLit σ1) = l.any (evalLit σ2) := by
  induction l with
  | nil => rfl
  | cons t rest ih =>
    simp only [List.any_cons]
    rw [h t (List.mem_cons_self _ _), ih (fun s hs => h s (List.mem_cons_of_mem _ hs))]

theorem level_sound (σ : Nat → Bool) (n : Nat) (vars : List Lit)
    (h : satClauses σ (levelClauses n vars)) :
    evalLit σ (⟨n, true⟩ : Lit) = vars.any (evalLit σ) ∧ countTrue σ vars ≤ 1 := by
  rw [levelClauses, satClauses_append, satClauses_append] at h
  obtain ⟨⟨hp, hlong⟩, himp⟩ := h
  have hlong2 := hlong _ (List.mem_singleton.mpr rfl)
  have hcmdv : evalLit σ (⟨n, true⟩ : Lit) = σ n := by simp [evalLit]
  constructor
  · rcases hcn : σ n with _ | _
    · rw [hcmdv, hcn]
      symm
      rw [List.any_eq_false]
      intro v hv
      have hclause := himp _ (List.mem_map.mpr ⟨v, hv, rfl⟩)
      simp only [evalClause, List.any_cons, List.any_nil, Bool.or_false] at hclause
      rw [evalLit_not, hcmdv, hcn] at hclause
      simp only [Bool.false_or] at hclause
      have hvfalse : evalLit σ v = false := by simpa using hclause
      simp [hvfalse]
    · rw [hcmdv, hcn]
      rw [evalClause, List.any_append] at hlong2
      have h2 : (List.any [Lit.not (⟨n, true⟩ : Lit)] (evalLit σ)) = false := by
        simp [evalLit_not, hcmdv, hcn]
      rw [h2, Bool.or_false] at hlong2
      exact hlong2.symm
  · exact pairwise_sound σ vars hp

theorem evalLit_update_of_ne (σ : Nat → Bool) (n : Nat) (b : Bool) (t : Lit)
    (h : t.var ≠ n) : evalLit (update σ n b) t = evalLit σ t := by
  cases t with
  | mk v p => cases p <;> simp [evalLit, update_ne σ n v b h]

theorem level_complete (σ : Nat → Bool) (n : Nat) (vars : List Lit)
    (hv : ∀ v ∈ vars, v.var < n) (hc : countTrue σ vars ≤ 1) :
    satClauses (update σ n (vars.any (evalLit σ))) (levelClauses n vars) ∧
    evalLit (update σ n (vars.any (evalLit σ))) (⟨n, true⟩ : Lit) = vars.any (evalLit σ) := by
  set b := vars.any (evalLit σ) with hb
  set σ2 := update σ n b with hσ2
  have hpres : ∀ v ∈ vars, evalLit σ2 v = evalLit σ v := by
    intro v hvv
    exact evalLit_update_of_ne σ n b v (Nat.ne_of_lt (hv v hvv))
  have hcmd : evalLit σ2 (⟨n, true⟩ : Lit) = b := by
    simp [evalLit, hσ2, update_same]
  refine ⟨?_, hcmd⟩
  rw [levelClauses, satClauses_append, satClauses_append]
  refine ⟨⟨?_, ?_⟩, ?_⟩
  · apply pairwise_complete
    have : countTrue σ2 vars = countTrue σ vars := by
      apply countTrue_congr
      intro t ht
      exact update_ne σ n t.var b (Nat.ne_of_lt (hv t ht))
    rw [this]; exact hc
  · intro c hcm
    rw [List.mem_singleton] at hcm
    subst hcm
    simp only [evalClause, List.any_append, List.any_cons, List.any_nil, evalLit_not, hcmd]
    have hany : vars.any (evalLit σ2) = b := by
      rw [hb]
      exact any_congr σ2 σ vars hpres
    rcases hbv : b with _ | _
    · simp [hany, hbv]
    · simp [hany, hbv]
  · intro c hcm
    obtain ⟨v, hvv, rfl⟩ := List.mem_map.mp hcm
    simp only [evalClause, List.any_cons, List.any_nil, evalLit_not, hcmd, hpres v hvv]
    rcases hev : evalLit σ v with _ | _
    · simp
    · have : b = true := by
        rw [hb, List.any_eq_true]
        exact ⟨v, hvv, by simpa using hev⟩
      simp [this]

/-! ## Lemmas about chunking -/

theorem chunksF_flatten : ∀ (fuel k : Nat) (l : List Lit), 1 ≤ k → l.length ≤ fuel →
    (chunksF fuel k l).flatten = l := by
  intro fuel
  induction fuel with
  | zero =>
    intro k l hk hl
    have : l = [] := List.eq_nil_of_length_eq_zero (Nat.le_zero.mp hl)
    subst this; rfl
  | succ fuel ih =>
    intro k l hk hl
    match l with
    | [] => rfl
    | a :: rest =>
      show (List.take k (a :: rest) :: chunksF fuel k (List.drop k (a :: rest))).flatten
        = a :: rest
      rw [List.flatten_cons]
      have hlen2 : ((a :: rest).drop k).length ≤ fuel := by
        rw [List.length_drop]
        simp only [List.length_cons] at hl ⊢
        omega
      rw [ih k ((a :: rest).drop k) hk hlen2]
      exact List.take_append_drop k (a :: rest)

theorem chunksOf_flatten (k : Nat) (l : List Lit) (hk : 1 ≤ k) :
    (chunksOf k l).flatten = l :=
  chunksF_flatten l.length k l hk (Nat.le_refl _)

theorem chunksF_sizes : ∀ (fuel k : Nat) (l : List Lit), ∀ ch ∈ chunksF fuel k l,
    ch.length ≤ k := by
  intro fuel
  induction fuel with
  | zero => intro k l ch hch; simp [chunksF] at hch
  | succ fuel ih =>
    intro k l ch hch
    match l with
    | [] => simp [chunksF] at hch
    | a :: rest =>
      rcases List.mem_cons.mp hch with h | h
      · subst h; simp [List.length_take_le]
      · exact ih k _ ch h

theorem chunksF_count_le : ∀ (fuel k m : Nat) (l : List Lit), 1 ≤ k → l.length ≤ k * m →
    (chunksF fuel k l).length ≤ m := by
  intro fuel
  induction fuel with
  | zero => intro k m l _ _; simp [chunksF]
  | succ fuel ih =>
    intro k m l hk hl
    match l with
    | [] => simp [chunksF]
    | a :: rest =>
      match m with
      | 0 => simp at hl
      | m + 1 =>
        show (List.take k (a :: rest) :: chunksF fuel k ((a :: rest).drop k)).length ≤ m + 1
        rw [List.length_cons]
        have hdrop : ((a :: rest).drop k).length ≤ k * m := by
          rw [List.length_drop]
          rw [Nat.mul_succ] at hl
          omega
        exact Nat.succ_le_succ (ih k m _ hk hdrop)

theorem chunksF_count_pos : ∀ (fuel k : Nat) (l : List Lit), l ≠ [] → 1 ≤ fuel →
    1 ≤ (chunksF fuel k l).length := by
  intro fuel k l hl hf
  match fuel, l with
  | fuel + 1, a :: rest => simp [chunksF]

theorem length_flatten_le (L : List (List Lit)) (k : Nat)
    (h : ∀ ch ∈ L, ch.length ≤ k) : L.flatten.length ≤ L.length * k := by
  induction L with
  | nil => simp
  | cons ch rest ih =>
    rw [List.flatten_cons, List.length_append, List.length_cons, Nat.succ_mul]
    have h1 := h ch (List.mem_cons_self _ _)
    have h2 := ih (fun c hc => h c (List.mem_cons_of_mem _ hc))
    omega

theorem chunkSize_facts (n : Nat) (h : 6 ≤ n) :
    1 ≤ chunkSize n ∧ n ≤ 3 * chunkSize n ∧ 2 * chunkSize n < n ∧ chunkSize n < n := by
  have hd := Nat.div_add_mod (n + 2) 3
  have hm : (n + 2) % 3 < 3 := Nat.mod_lt _ (by omega)
  simp only [chunkSize]
  omega

theorem chunksOf_length_three (l : List Lit) (h : 6 ≤ l.length) :
    (chunksOf (chunkSize l.length) l).length = 3 := by
  obtain ⟨h1, h2, h3, _⟩ := chunkSize_facts l.length h
  have hle : (chunksOf (chunkSize l.length) l).length ≤ 3 :=
    chunksF_count_le l.length (chunkSize l.length) 3 l h1 (by omega)
  have hsizes := chunksF_sizes l.length (chunkSize l.length) l
  have hflat := chunksOf_flatten (chunkSize l.length) l h1
  have hlen : (chunksOf (chunkSize l.length) l).flatten.length = l.length := by rw [hflat]
  have hbound := length_flatten_le (chunksOf (chunkSize l.length) l) (chunkSize l.length)
    hsizes
  rw [hlen] at hbound
  rcases hc : (chunksOf (chunkSize l.length) l).length with _ | _ | _ | _ | m
  · rw [hc, Nat.zero_mul] at hbound; omega
  · rw [hc, Nat.one_mul] at hbound; omega
  · rw [hc] at hbound; omega
  · rfl
  · rw [hc] at hle; omega

/-! ## Structural invariants of the commander encoder -/

theorem cEOF_succ_lt (fuel : Nat) (F : CnfFormula) (inputs : List Lit)
    (h : inputs.length < 6) :
    commanderExactlyOneF (fuel + 1) F inputs = encodeLevel F inputs := by
  simp [commanderExactlyOneF, h]

theorem cEOF_succ_ge (fuel : Nat) (F : CnfFormula) (inputs : List Lit)
    (h : ¬ inputs.length < 6) :
    commanderExactlyOneF (fuel + 1) F inputs =
      encodeLevel ((chunksOf (chunkSize inputs.length) inputs).foldl
          (commanderStep (commanderExactlyOneF fuel)) ([], F)).2
        ((chunksOf (chunkSize inputs.length) inputs).foldl
          (commanderStep (commanderExactlyOneF fuel)) ([], F)).1 := by
  simp [commanderExactlyOneF, h]

theorem mem_of_mem_chunks (l : List Lit) (h6 : 6 ≤ l.length) (ch : List Lit) (t : Lit)
    (hch : ch ∈ chunksOf (chunkSize l.length) l) (ht : t ∈ ch) : t ∈ l := by
  obtain ⟨h1, _, _, _⟩ := chunkSize_facts l.length h6
  rw [← chunksOf_flatten (chunkSize l.length) l h1]
  exact List.mem_flatten.mpr ⟨ch, hch, ht⟩

theorem getD_mem_of_lt (vars : List Lit) (i : Nat) (hi : i < vars.length) :
    vars.getD i defaultLit ∈ vars := by
  rw [List.getD_eq_getElem _ _ hi]
  exact List.getElem_mem hi

theorem levelClauses_below (n : Nat) (vars : List Lit) (hv : ∀ v ∈ vars, v.var < n) :
    clausesBelow (n + 1) (levelClauses n vars) := by
  have hvars : ∀ v ∈ vars, v.var < n + 1 := fun v hvv => Nat.lt_succ_of_lt (hv v hvv)
  rw [levelClauses, clausesBelow_append, clausesBelow_append]
  refine ⟨⟨?_, ?_⟩, ?_⟩
  · intro c hc
    obtain ⟨i, j, hji, hi, rfl⟩ := pairwise_mem_inv vars c hc
    intro t ht
    have hgi := getD_mem_of_lt vars i hi
    have hgj := getD_mem_of_lt vars j (Nat.lt_trans hji hi)
    rcases List.mem_cons.mp ht with rfl | ht2
    · simpa [Lit.not] using hvars _ hgi
    · rcases List.mem_cons.mp ht2 with rfl | ht3
      · simpa [Lit.not] using hvars _ hgj
      · simp at ht3
  · intro c hc t ht
    rw [List.mem_singleton] at hc
    subst hc
    rcases List.mem_append.mp ht with h | h
    · exact hvars t h
    · rw [List.mem_singleton] at h
      subst h
      simp [Lit.not]
  · intro c hc t ht
    obtain ⟨v, hvv, rfl⟩ := List.mem_map.mp hc
    rcases List.mem_cons.mp ht with rfl | ht2
    · simp
    · rcases List.mem_cons.mp ht2 with rfl | ht3
      · simpa [Lit.not] using hvars v hvv
      · simp at ht3

theorem fold_inv (rec : CnfFormula → List Lit → Lit × CnfFormula)
    (hrec : ∀ (G : CnfFormula) (ch : List Lit),
      G.varCount < (rec G ch).2.varCount ∧
      (rec G ch).1.var < (rec G ch).2.varCount ∧
      ∃ Δ, (rec G ch).2.clauses = G.clauses ++ Δ ∧
        ((∀ t ∈ ch, t.var < G.varCount) → clausesBelow (rec G ch).2.varCount Δ)) :
    ∀ (chs : List (List Lit)) (cs0 : List Lit) (G : CnfFormula),
      G.varCount ≤ ((chs.foldl (commanderStep rec) (cs0, G)).2).varCount ∧
      ∃ cmds Δ,
        (chs.foldl (commanderStep rec) (cs0, G)).1 = cs0 ++ cmds ∧
        (chs.foldl (commanderStep rec) (cs0, G)).2.clauses = G.clauses ++ Δ ∧
        (∀ c ∈ cmds, c.var < ((chs.foldl (commanderStep rec) (cs0, G)).2).varCount) ∧
        ((∀ ch ∈ chs, ∀ t ∈ ch, t.var < G.varCount) →
          clausesBelow ((chs.foldl (commanderStep rec) (cs0, G)).2).varCount Δ) := by
  intro chs
  induction chs with
  | nil =>
    intro cs0 G
    refine ⟨Nat.le_refl _, [], [], by simp, by simp, by simp, fun _ => by
      intro c hc; simp at hc⟩
  | cons ch rest ih =>
    intro cs0 G
    obtain ⟨hv1, hc1, Δ1, hΔ1, hbel1⟩ := hrec G ch
    have hstep : commanderStep rec (cs0, G) ch = (cs0 ++ [(rec G ch).1], (rec G ch).2) := rfl
    rw [List.foldl_cons, hstep]
    obtain ⟨hvr, cmds2, Δ2, hcm2, hΔ2, hbnd2, hbel2⟩ := ih (cs0 ++ [(rec G ch).1]) (rec G ch).2
    refine ⟨Nat.le_trans (Nat.le_of_lt hv1) hvr, (rec G ch).1 :: cmds2, Δ1 ++ Δ2, ?_, ?_, ?_, ?_⟩
    · rw [hcm2, List.append_assoc]
      rfl
    · rw [hΔ2, hΔ1, List.append_assoc]
    · intro c hc
      rcases List.mem_cons.mp hc with rfl | hc2
      · exact Nat.lt_of_lt_of_le hc1 hvr
      · exact hbnd2 c hc2
    · intro hall
      rw [clausesBelow_append]
      constructor
      · exact clausesBelow_mono _ _ _ hvr (hbel1 (hall ch (List.mem_cons_self _ _)))
      · exact hbel2 (fun c hcm t ht =>
          Nat.lt_of_lt_of_le (hall c (List.mem_cons_of_mem _ hcm) t ht) (Nat.le_of_lt hv1))

theorem cEOF_inv : ∀ (fuel : Nat) (F : CnfFormula) (inputs : List Lit),
    F.varCount < (commanderExactlyOneF fuel F inputs).2.varCount ∧
    (commanderExactlyOneF fuel F inputs).1.var <
      (commanderExactlyOneF fuel F inputs).2.varCount ∧
    ∃ Δ, (commanderExactlyOneF fuel F inputs).2.clauses = F.clauses ++ Δ ∧
      ((∀ t ∈ inputs, t.var < F.varCount) →
        clausesBelow (commanderExactlyOneF fuel F inputs).2.varCount Δ) := by
  intro fuel
  induction fuel with
  | zero =>
    intro F inputs
    have he : commanderExactlyOneF 0 F inputs = encodeLevel F inputs := rfl
    rw [he, encodeLevel_eq]
    exact ⟨Nat.lt_succ_self _, Nat.lt_succ_self _, levelClauses F.varCount inputs, rfl,
      fun hb => levelClauses_below F.varCount inputs hb⟩
  | succ fuel ih =>
    intro F inputs
    by_cases h6 : inputs.length < 6
    · rw [cEOF_succ_lt fuel F inputs h6, encodeLevel_eq]
      exact ⟨Nat.lt_succ_self _, Nat.lt_succ_self _, levelClauses F.varCount inputs, rfl,
        fun hb => levelClauses_below F.varCount inputs hb⟩
    · rw [cEOF_succ_ge fuel F inputs h6]
      have hfold := fold_inv (commanderExactlyOneF fuel) ih
        (chunksOf (chunkSize inputs.length) inputs) [] F
      obtain ⟨hvle, cmds, Δf, hcm, hΔf, hbnd, hbelf⟩ := hfold
      set r := (chunksOf (chunkSize inputs.length) inputs).foldl
        (commanderStep (commanderExactlyOneF fuel)) ([], F) with hr
      rw [encodeLevel_eq]
      refine ⟨?_, ?_, Δf ++ levelClauses r.2.varCount r.1, ?_, ?_⟩
      · exact Nat.lt_succ_of_le hvle
      · exact Nat.lt_succ_self _
      · rw [hΔf, List.append_assoc]
      · intro hb
        rw [clausesBelow_append]
        have h6le : 6 ≤ inputs.length := Nat.le_of_not_lt h6
        have hchb : ∀ ch ∈ chunksOf (chunkSize inputs.length) inputs, ∀ t ∈ ch,
            t.var < F.varCount := fun ch hch t ht =>
          hb t (mem_of_mem_chunks inputs h6le ch t hch ht)
        constructor
        · exact clausesBelow_mono _ _ _ (Nat.le_succ _) (hbelf hchb)
        · apply levelClauses_below
          intro v hvv
          rw [hcm] at hvv
          simp only [List.nil_append] at hvv
          exact hbnd v hvv

/-! ## Soundness of the commander encoder -/

theorem countTrue_flatten (σ : Nat → Bool) (L : List (List Lit)) :
    countTrue σ L.flatten = (L.map (countTrue σ)).sum := by
  induction L with
  | nil => rfl
  | cons ch rest ih =>
    rw [List.flatten_cons, countTrue_append, List.map_cons, List.sum_cons, ih]

theorem any_flatten (σ : Nat → Bool) (L : List (List Lit)) :
    L.flatten.any (evalLit σ) = L.any (fun ch => ch.any (evalLit σ)) := by
  induction L with
  | nil => rfl
  | cons ch rest ih => rw [List.flatten_cons, List.any_append, List.any_cons, ih]

theorem encodeLevel_sound (F : CnfFormula) (vars : List Lit) (σ : Nat → Bool)
    (h : satisfies σ (encodeLevel F vars).2) :
    evalLit σ (encodeLevel F vars).1 = vars.any (evalLit σ) ∧ countTrue σ vars ≤ 1 := by
  rw [encodeLevel_eq] at h ⊢
  have h2 : satClauses σ (F.clauses ++ levelClauses F.varCount vars) := h
  exact level_sound σ F.varCount vars ((satClauses_append σ _ _).mp h2).2

theorem fold_sound (rec : CnfFormula → List Lit → Lit × CnfFormula)
    (hpre : ∀ (G : CnfFormula) (ch : List Lit),
      ∃ Δ, (rec G ch).2.clauses = G.clauses ++ Δ)
    (hsound : ∀ (G : CnfFormula) (ch : List Lit) (σ : Nat → Bool),
      satisfies σ (rec G ch).2 →
      evalLit σ (rec G ch).1 = ch.any (evalLit σ) ∧ countTrue σ ch ≤ 1) :
    ∀ (chs : List (List Lit)) (cs0 : List Lit) (G : CnfFormula) (σ : Nat → Bool),
      satisfies σ ((chs.foldl (commanderStep rec) (cs0, G)).2) →
      satisfies σ G ∧
      ∃ cmds, (chs.foldl (commanderStep rec) (cs0, G)).1 = cs0 ++ cmds ∧
        List.Forall₂ (fun c ch => evalLit σ c = ch.any (evalLit σ) ∧ countTrue σ ch ≤ 1)
          cmds chs := by
  intro chs
  induction chs with
  | nil =>
    intro cs0 G σ h
    exact ⟨h, [], by simp, List.Forall₂.nil⟩
  | cons ch rest ih =>
    intro cs0 G σ h
    have hstep : commanderStep rec (cs0, G) ch = (cs0 ++ [(rec G ch).1], (rec G ch).2) := rfl
    rw [List.foldl_cons, hstep] at h
    obtain ⟨hsat1, cmds2, hcm2, hf2⟩ := ih (cs0 ++ [(rec G ch).1]) (rec G ch).2 σ h
    obtain ⟨hev, hct⟩ := hsound G ch σ hsat1
    have hsatG : satisfies σ G := by
      obtain ⟨Δ, hΔ⟩ := hpre G ch
      intro c hc
      exact hsat1 c (by rw [hΔ]; exact List.mem_append_left _ hc)
    refine ⟨hsatG, (rec G ch).1 :: cmds2, ?_, List.Forall₂.cons ⟨hev, hct⟩ hf2⟩
    rw [List.foldl_cons, hstep, hcm2, List.append_assoc]
    rfl

theorem forall2_any (σ : Nat → Bool) (cmds : List Lit) (chs : List (List Lit))
    (h : List.Forall₂ (fun c ch => evalLit σ c = ch.any (evalLit σ) ∧ countTrue σ ch ≤ 1)
      cmds chs) :
    cmds.any (evalLit σ) = chs.any (fun ch => ch.any (evalLit σ)) := by
  induction h with
  | nil => rfl
  | cons hP hF2 ih => rw [List.any_cons, List.any_cons, hP.1, ih]

theorem forall2_sum_zero (σ : Nat → Bool) (cmds : List Lit) (chs : List (List Lit))
    (h : List.Forall₂ (fun c ch => evalLit σ c = ch.any (evalLit σ) ∧ countTrue σ ch ≤ 1)
      cmds chs)
    (h0 : countTrue σ cmds = 0) : (chs.map (countTrue σ)).sum = 0 := by
  induction h with
  | nil => rfl
  | @cons c ch cmds2 chs2 hP hF2 ih =>
    simp only [countTrue, List.countP_cons] at h0
    have hev : evalLit σ c = false := by
      rcases hb : evalLit σ c with _ | _
      · rfl
      · rw [hb] at h0; simp at h0
    have h02 : countTrue σ cmds2 = 0 := by
      rw [hev] at h0
      simpa [countTrue] using h0
    have hch : countTrue σ ch = 0 := by
      rw [countTrue_eq_zero]
      intro t ht
      have hanyf : ch.any (evalLit σ) = false := by rw [← hP.1, hev]
      rw [List.any_eq_false] at hanyf
      rcases hb : evalLit σ t with _ | _
      · rfl
      · exact absurd hb (by simpa using hanyf t ht)
    rw [List.map_cons, List.sum_cons, hch, ih h02]

theorem forall2_sum_le_one (σ : Nat → Bool) (cmds : List Lit) (chs : List (List Lit))
    (h : List.Forall₂ (fun c ch => evalLit σ c = ch.any (evalLit σ) ∧ countTrue σ ch ≤ 1)
      cmds chs)
    (h1 : countTrue σ cmds ≤ 1) : (chs.map (countTrue σ)).sum ≤ 1 := by
  induction h with
  | nil => simp
  | @cons c ch cmds2 chs2 hP hF2 ih =>
    rw [List.map_cons, List.sum_cons]
    have hle := hP.2
    rcases hev : evalLit σ c with _ | _
    · have hcp : countTrue σ (c :: cmds2) = countTrue σ cmds2 := by
        simp [countTrue, List.countP_cons, hev]
      have hch : countTrue σ ch = 0 := by
        rw [countTrue_eq_zero]
        intro t ht
        have hanyf : ch.any (evalLit σ) = false := by rw [← hP.1, hev]
        rw [List.any_eq_false] at hanyf
        rcases hb : evalLit σ t with _ | _
        · rfl
        · exact absurd hb (by simpa using hanyf t ht)
      have hsum := ih (by rw [← hcp]; exact h1)
      omega
    · have hcp : countTrue σ (c :: cmds2) = countTrue σ cmds2 + 1 := by
        simp [countTrue, List.countP_cons, hev]
      have h02 : countTrue σ cmds2 = 0 := by omega
      rw [forall2_sum_zero σ cmds2 chs2 hF2 h02]
      omega

theorem cEOF_sound : ∀ (fuel : Nat) (F : CnfFormula) (inputs : List Lit) (σ : Nat → Bool),
    satisfies σ (commanderExactlyOneF fuel F inputs).2 →
    evalLit σ (commanderExactlyOneF fuel F inputs).1 = inputs.any (evalLit σ) ∧
    countTrue σ inputs ≤ 1 := by
  intro fuel
  induction fuel with
  | zero =>
    intro F inputs σ h
    have he : commanderExactlyOneF 0 F inputs = encodeLevel F inputs := rfl
    rw [he] at h ⊢
    exact encodeLevel_sound F inputs σ h
  | succ fuel ih =>
    intro F inputs σ h
    by_cases h6 : inputs.length < 6
    · rw [cEOF_succ_lt fuel F inputs h6] at h ⊢
      exact encodeLevel_sound F inputs σ h
    · rw [cEOF_succ_ge fuel F inputs h6] at h ⊢
      have h6le : 6 ≤ inputs.length := Nat.le_of_not_lt h6
      obtain ⟨hk1, _, _, _⟩ := chunkSize_facts inputs.length h6le
      set chs := chunksOf (chunkSize inputs.length) inputs with hchs
      set r := chs.foldl (commanderStep (commanderExactlyOneF fuel)) ([], F) with hr
      rw [encodeLevel_eq] at h ⊢
      have h2 : satClauses σ (r.2.clauses ++ levelClauses r.2.varCount r.1) := h
      have hlev := ((satClauses_append σ _ _).mp h2).2
      have hsatr : satisfies σ r.2 := ((satClauses_append σ _ _).mp h2).1
      obtain ⟨hevl, hcnt⟩ := level_sound σ r.2.varCount r.1 hlev
      obtain ⟨hsatF, cmds, hcm, hf2⟩ := fold_sound (commanderExactlyOneF fuel)
        (fun G ch => ((cEOF_inv fuel G ch).2.2).imp (fun Δ hΔ => hΔ.1))
        ih chs [] F σ hsatr
      rw [List.nil_append] at hcm
      have hflat : chs.flatten = inputs := chunksOf_flatten (chunkSize inputs.length) inputs hk1
      constructor
      · rw [hevl, hcm, forall2_any σ cmds chs hf2, ← any_flatten, hflat]
      · rw [← hflat, countTrue_flatten]
        rw [hcm] at hcnt
        exact forall2_sum_le_one σ cmds chs hf2 hcnt

/-! ## Completeness of the commander encoder -/

theorem evalLit_agree (m : Nat) (σ2 σ1 : Nat → Bool) (t : Lit) (hm : t.var < m)
    (hag : agreeBelow m σ2 σ1) : evalLit σ2 t = evalLit σ1 t := by
  cases t with
  | mk v p =>
    have hv : σ2 v = σ1 v := hag v hm
    cases p <;> simp [evalLit, hv]

theorem mem_sum_le (L : List Nat) (x : Nat) (hx : x ∈ L) : x ≤ L.sum := by
  induction L with
  | nil => simp at hx
  | cons a rest ih =>
    rw [List.sum_cons]
    rcases List.mem_cons.mp hx with rfl | h
    · omega
    · have := ih h
      omega

theorem forall2_cmds_zero (σ2 σ : Nat → Bool) (cmds : List Lit) (chs : List (List Lit))
    (h : List.Forall₂ (fun c ch => evalLit σ2 c = ch.any (evalLit σ)) cmds chs)
    (hsum : (chs.map (countTrue σ)).sum = 0) : countTrue σ2 cmds = 0 := by
  induction h with
  | nil => rfl
  | @cons c ch cmds2 chs2 hP hF2 ih =>
    rw [List.map_cons, List.sum_cons] at hsum
    have hch : countTrue σ ch = 0 := by omega
    have hrest : (chs2.map (countTrue σ)).sum = 0 := by omega
    have hanyf : ch.any (evalLit σ) = false := by
      rw [any_eq_countTrue_pos, hch]
      simp
    have hev : evalLit σ2 c = false := by rw [hP, hanyf]
    have := ih hrest
    simp [countTrue, List.countP_cons, hev]
    simpa [countTrue] using this

theorem forall2_cmds_le_one (σ2 σ : Nat → Bool) (cmds : List Lit) (chs : List (List Lit))
    (h : List.Forall₂ (fun c ch => evalLit σ2 c = ch.any (evalLit σ)) cmds chs)
    (hsum : (chs.map (countTrue σ)).sum ≤ 1) : countTrue σ2 cmds ≤ 1 := by
  induction h with
  | nil => simp [countTrue]
  | @cons c ch cmds2 chs2 hP hF2 ih =>
    rw [List.map_cons, List.sum_cons] at hsum
    rcases hev : evalLit σ2 c with _ | _
    · have hcp : countTrue σ2 (c :: cmds2) = countTrue σ2 cmds2 := by
        simp [countTrue, List.countP_cons, hev]
      rw [hcp]
      exact ih (by omega)
    · have hany : ch.any (evalLit σ) = true := by rw [← hP, hev]
      have hch : 1 ≤ countTrue σ ch := by
        rw [any_eq_countTrue_pos] at hany
        simp at hany
        omega
      have hrest : (chs2.map (countTrue σ)).sum = 0 := by omega
      have h0 := forall2_cmds_zero σ2 σ cmds2 chs2 hF2 hrest
      have hcp : countTrue σ2 (c :: cmds2) = countTrue σ2 cmds2 + 1 := by
        simp [countTrue, List.countP_cons, hev]
      omega

theorem forall2_any2 (σ2 σ : Nat → Bool) (cmds : List Lit) (chs : List (List Lit))
    (h : List.Forall₂ (fun c ch => evalLit σ2 c = ch.any (evalLit σ)) cmds chs) :
    cmds.any (evalLit σ2) = chs.any (fun ch => ch.any (evalLit σ)) := by
  induction h with
  | nil => rfl
  | cons hP hF2 ih => rw [List.any_cons, List.any_cons, hP, ih]

theorem forall2_transport (σ2 σ1 σ : Nat → Bool) (m : Nat) (cmds : List Lit)
    (chs : List (List Lit))
    (h : List.Forall₂ (fun c ch => evalLit σ2 c = ch.any (evalLit σ1)) cmds chs)
    (hb : ∀ ch ∈ chs, ∀ t ∈ ch, t.var < m)
    (hag : agreeBelow m σ1 σ) :
    List.Forall₂ (fun c ch => evalLit σ2 c = ch.any (evalLit σ)) cmds chs := by
  induction h with
  | nil => exact List.Forall₂.nil
  | @cons c ch cmds2 chs2 hP hF2 ih =>
    refine List.Forall₂.cons ?_ (ih (fun ch2 h2 => hb ch2 (List.mem_cons_of_mem _ h2)))
    rw [hP]
    apply any_congr
    intro t ht
    exact evalLit_agree m σ1 σ t (hb ch (List.mem_cons_self _ _) t ht) hag

theorem fold_complete (rec : CnfFormula → List Lit → Lit × CnfFormula)
    (hinv : ∀ (G : CnfFormula) (ch : List Lit),
      G.varCount < (rec G ch).2.varCount ∧
      (rec G ch).1.var < (rec G ch).2.varCount ∧
      ∃ Δ, (rec G ch).2.clauses = G.clauses ++ Δ ∧
        ((∀ t ∈ ch, t.var < G.varCount) → clausesBelow (rec G ch).2.varCount Δ))
    (hcomp : ∀ (G : CnfFormula) (ch : List Lit) (σ : Nat → Bool),
      (∀ t ∈ ch, t.var < G.varCount) → countTrue σ ch ≤ 1 →
      ∃ σ2, agreeBelow G.varCount σ2 σ ∧
        (∀ Δ, (rec G ch).2.clauses = G.clauses ++ Δ → satClauses σ2 Δ) ∧
        evalLit σ2 (rec G ch).1 = ch.any (evalLit σ)) :
    ∀ (chs : List (List Lit)) (G : CnfFormula) (σ : Nat → Bool) (cs0 : List Lit),
      (∀ ch ∈ chs, ∀ t ∈ ch, t.var < G.varCount) →
      (∀ ch ∈ chs, countTrue σ ch ≤ 1) →
      ∃ σ2 cmds, agreeBelow G.varCount σ2 σ ∧
        (chs.foldl (commanderStep rec) (cs0, G)).1 = cs0 ++ cmds ∧
        (∀ Δ, (chs.foldl (commanderStep rec) (cs0, G)).2.clauses = G.clauses ++ Δ →
          satClauses σ2 Δ) ∧
        List.Forall₂ (fun c ch => evalLit σ2 c = ch.any (evalLit σ)) cmds chs := by
  intro chs
  induction chs with
  | nil =>
    intro G σ cs0 _ _
    refine ⟨σ, [], fun v _ => rfl, by simp, ?_, List.Forall₂.nil⟩
    intro Δ hΔ
    have hnil : Δ = [] := by
      have hlen := congrArg List.length hΔ
      rw [List.length_append] at hlen
      have : Δ.length = 0 := by simpa using hlen.symm
      exact List.eq_nil_of_length_eq_zero this
    subst hnil
    intro c hc
    simp at hc
  | cons ch rest ih =>
    intro G σ cs0 hb hc
    obtain ⟨hv1, hcv1, Δ1, hΔ1, hbel1⟩ := hinv G ch
    have hbch : ∀ t ∈ ch, t.var < G.varCount := hb ch (List.mem_cons_self _ _)
    obtain ⟨σ1, hag1, hsat1, hev1⟩ := hcomp G ch σ hbch (hc ch (List.mem_cons_self _ _))
    set G1 := (rec G ch).2 with hG1
    set cmd1 := (rec G ch).1 with hcmd1
    have hbrest : ∀ c2 ∈ rest, ∀ t ∈ c2, t.var < G1.varCount := fun c2 hc2 t ht =>
      Nat.lt_trans (hb c2 (List.mem_cons_of_mem _ hc2) t ht) hv1
    have hcrest : ∀ c2 ∈ rest, countTrue σ1 c2 ≤ 1 := by
      intro c2 hc2
      have heq : countTrue σ1 c2 = countTrue σ c2 := by
        apply countTrue_congr
        intro t ht
        exact hag1 t.var (hb c2 (List.mem_cons_of_mem _ hc2) t ht)
      rw [heq]
      exact hc c2 (List.mem_cons_of_mem _ hc2)
    obtain ⟨σ2, cmds2, hag2, hcm2, hsat2, hf2⟩ := ih G1 σ1 (cs0 ++ [cmd1]) hbrest hcrest
    have hstep : commanderStep rec (cs0, G) ch = (cs0 ++ [cmd1], G1) := rfl
    -- the fold over rest starting from G1 appends some Δ2 to G1's clauses
    obtain ⟨_, _, Δ2, _, hΔ2, _, _⟩ := fold_inv rec hinv rest (cs0 ++ [cmd1]) G1
    refine ⟨σ2, cmd1 :: cmds2, ?_, ?_, ?_, ?_⟩
    · exact agreeBelow_trans _ _ _ _ (agreeBelow_mono _ _ _ _ (Nat.le_of_lt hv1) hag2) hag1
    · rw [List.foldl_cons, hstep, hcm2, List.append_assoc]
      rfl
    · intro Δ hΔ
      rw [List.foldl_cons, hstep] at hΔ
      rw [hΔ2, hΔ1, List.append_assoc] at hΔ
      have hΔeq : Δ = Δ1 ++ Δ2 := List.append_cancel_left hΔ.symm
      subst hΔeq
      rw [satClauses_append]
      constructor
      · have hs1 : satClauses σ1 Δ1 := hsat1 Δ1 hΔ1
        rw [satClauses_congr σ2 σ1 G1.varCount Δ1 (hbel1 hbch) hag2]
        exact hs1
      · exact hsat2 Δ2 hΔ2
    · refine List.Forall₂.cons ?_ ?_
      · have he2 : evalLit σ2 cmd1 = evalLit σ1 cmd1 := evalLit_agree G1.varCount σ2 σ1
          cmd1 hcv1 hag2
        rw [he2, hev1]
      · exact forall2_transport σ2 σ1 σ G.varCount cmds2 rest hf2
          (fun c2 hc2 t ht => hb c2 (List.mem_cons_of_mem _ hc2) t ht) hag1

theorem cEOF_complete : ∀ (fuel : Nat) (F : CnfFormula) (inputs : List Lit) (σ : Nat → Bool),
    (∀ t ∈ inputs, t.var < F.varCount) →
    countTrue σ inputs ≤ 1 →
    ∃ σ2, agreeBelow F.varCount σ2 σ ∧
      (∀ Δ, (commanderExactlyOneF fuel F inputs).2.clauses = F.clauses ++ Δ →
        satClauses σ2 Δ) ∧
      evalLit σ2 (commanderExactlyOneF fuel F inputs).1 = inputs.any (evalLit σ) := by
  intro fuel
  induction fuel with
  | zero =>
    intro F inputs σ hb hcnt
    have he : commanderExactlyOneF 0 F inputs = encodeLevel F inputs := rfl
    rw [he, encodeLevel_eq]
    obtain ⟨hsat, hev⟩ := level_complete σ F.varCount inputs hb hcnt
    refine ⟨update σ F.varCount (inputs.any (evalLit σ)), agreeBelow_update σ _ _, ?_, hev⟩
    intro Δ hΔ
    have hΔ2 : F.clauses ++ levelClauses F.varCount inputs = F.clauses ++ Δ := hΔ
    have hΔ3 : Δ = levelClauses F.varCount inputs := (List.append_cancel_left hΔ2).symm
    rw [hΔ3]
    exact hsat
  | succ fuel ih =>
    intro F inputs σ hb hcnt
    by_cases h6 : inputs.length < 6
    · rw [cEOF_succ_lt fuel F inputs h6, encodeLevel_eq]
      obtain ⟨hsat, hev⟩ := level_complete σ F.varCount inputs hb hcnt
      refine ⟨update σ F.varCount (inputs.any (evalLit σ)), agreeBelow_update σ _ _, ?_, hev⟩
      intro Δ hΔ
      have hΔ2 : F.clauses ++ levelClauses F.varCount inputs = F.clauses ++ Δ := hΔ
      have hΔ3 : Δ = levelClauses F.varCount inputs := (List.append_cancel_left hΔ2).symm
      rw [hΔ3]
      exact hsat
    · rw [cEOF_succ_ge fuel F inputs h6]
      have h6le : 6 ≤ inputs.length := Nat.le_of_not_lt h6
      obtain ⟨hk1, _, _, _⟩ := chunkSize_facts inputs.length h6le
      set chs := chunksOf (chunkSize inputs.length) inputs with hchs
      have hflat : chs.flatten = inputs := chunksOf_flatten _ inputs hk1
      have hbch : ∀ ch ∈ chs, ∀ t ∈ ch, t.var < F.varCount := fun ch hch t ht =>
        hb t (mem_of_mem_chunks inputs h6le ch t hch ht)
      have hcch : ∀ ch ∈ chs, countTrue σ ch ≤ 1 := by
        intro ch hch
        have hsum : (chs.map (countTrue σ)).sum = countTrue σ inputs := by
          rw [← hflat, countTrue_flatten]
        have hmem : countTrue σ ch ∈ chs.map (countTrue σ) :=
          List.mem_map.mpr ⟨ch, hch, rfl⟩
        have := mem_sum_le _ _ hmem
        omega
      obtain ⟨σk, cmds, hagk, hcmk, hsatk, hf2k⟩ := fold_complete
        (commanderExactlyOneF fuel) (cEOF_inv fuel) ih chs F σ [] hbch hcch
      set r := chs.foldl (commanderStep (commanderExactlyOneF fuel)) ([], F) with hr
      rw [List.nil_append] at hcmk
      obtain ⟨hvle, cmds2, Δf, hcm2, hΔf, hbnd, hbelf⟩ := fold_inv
        (commanderExactlyOneF fuel) (cEOF_inv fuel) chs [] F
      rw [List.nil_append] at hcm2
      have hvcm : ∀ c ∈ r.1, c.var < r.2.varCount := by
        rw [hcm2]
        exact hbnd
      have hcntk : countTrue σk r.1 ≤ 1 := by
        rw [hcmk]
        apply forall2_cmds_le_one σk σ cmds chs hf2k
        rw [← countTrue_flatten σ chs, hflat]
        exact hcnt
      obtain ⟨hsatlev, hevlev⟩ := level_complete σk r.2.varCount r.1 hvcm hcntk
      rw [encodeLevel_eq]
      refine ⟨update σk r.2.varCount (r.1.any (evalLit σk)), ?_, ?_, ?_⟩
      · apply agreeBelow_trans F.varCount _ σk σ ?_ hagk
        exact agreeBelow_mono _ _ _ _ hvle (agreeBelow_update σk _ _)
      · intro Δ hΔ
        have hΔ2 : r.2.clauses ++ levelClauses r.2.varCount r.1 = F.clauses ++ Δ := hΔ
        rw [hΔf, List.append_assoc] at hΔ2
        have hΔ3 : Δ = Δf ++ levelClauses r.2.varCount r.1 :=
          (List.append_cancel_left hΔ2).symm
        rw [hΔ3, satClauses_append]
        constructor
        · rw [satClauses_congr _ σk r.2.varCount Δf (hbelf hbch) (agreeBelow_update σk _ _)]
          exact hsatk Δf hΔf
        · exact hsatlev
      · have hany : r.1.any (evalLit σk) = inputs.any (evalLit σ) := by
          rw [hcmk, forall2_any2 σk σ cmds chs hf2k, ← any_flatten, hflat]
        rw [← hany]
        exact hevlev

/-! ## Length preservation of the sorting network -/

theorem swapStep_length (acc : List Lit × CnfFormula) (sw : Nat × Nat) :
    (swapStep acc sw).1.length = acc.1.length := by
  simp [swapStep]

theorem foldl_length_inv {α : Type} (step : (List Lit × CnfFormula) → α → List Lit × CnfFormula)
    (hstep : ∀ acc x, (step acc x).1.length = acc.1.length) :
    ∀ (L : List α) (acc : List Lit × CnfFormula),
      (L.foldl step acc).1.length = acc.1.length := by
  intro L
  induction L with
  | nil => intro acc; rfl
  | cons x rest ih =>
    intro acc
    rw [List.foldl_cons, ih, hstep]

theorem applySwaps_length (F : CnfFormula) (swaps : List (Nat × Nat)) (vars : List Lit) :
    (applySwaps F swaps vars).1.length = vars.length :=
  foldl_length_inv swapStep swapStep_length swaps (vars, F)

theorem finalPass_length (F : CnfFormula) (vars : List Lit) :
    (finalPass F vars).1.length = vars.length := by
  apply foldl_length_inv
  intro acc i
  by_cases h : i % 2 = 1
  · simp [h, swapStep_length]
  · simp [h]

theorem padTrue_length : ∀ (c : Nat) (F : CnfFormula) (vars : List Lit),
    (padTrue F vars c).1.length = vars.length + c := by
  intro c
  induction c with
  | zero => intro F vars; rfl
  | succ c ih =>
    intro F vars
    show (padTrue _ (vars ++ [_]) c).1.length = _
    rw [ih, List.length_append]
    simp
    omega

theorem oddIdx_length : ∀ l : List Lit, (oddIdx l).length = l.length / 2
  | [] => rfl
  | [_] => by simp [oddIdx]
  | _ :: _ :: rest => by
    simp only [oddIdx, List.length_cons, oddIdx_length rest]
    omega

theorem evenIdx_length : ∀ l : List Lit, (evenIdx l).length = (l.length + 1) / 2
  | [] => rfl
  | [_] => by simp [evenIdx]
  | _ :: _ :: rest => by
    simp only [evenIdx, List.length_cons, evenIdx_length rest]
    omega

theorem interleave_length : ∀ e o : List Lit,
    (interleave e o).length = 2 * min e.length o.length
  | [], _ => by simp [interleave]
  | _ :: _, [] => by simp [interleave]
  | a :: es, b :: os => by
    simp only [interleave, List.length_cons, interleave_length es os]
    omega

theorem msnF_length : ∀ (fuel : Nat) (F : CnfFormula) (vars : List Lit),
    (makeSortingNetworkF fuel F vars).1.length = vars.length := by
  intro fuel
  induction fuel with
  | zero => intro F vars; rfl
  | succ fuel ih =>
    intro F vars
    cases hsw : swapsFor vars.length with
    | some swaps =>
      have he : makeSortingNetworkF (fuel + 1) F vars = applySwaps F swaps vars := by
        simp [makeSortingNetworkF, hsw]
      rw [he, applySwaps_length]
    | none =>
      simp only [makeSortingNetworkF, hsw]
      simp only [List.length_take, finalPass_length, interleave_length, evenIdx_length,
        oddIdx_length, List.length_append, ih, List.length_drop, padTrue_length,
        paddingAmount]
      omega

theorem makeSortingNetwork_length (F : CnfFormula) (vars : List Lit) :
    (makeSortingNetwork F vars).1.length = vars.length :=
  msnF_length (vars.length + 1) F vars

/-! ## Claim theorems for the commander-based constraints -/

theorem find_var (l : List Lit) (hnd : (l.map Lit.var).Nodup) (t : Lit) (ht : t ∈ l) :
    l.find? (fun s => s.var == t.var) = some t := by
  induction l with
  | nil => simp at ht
  | cons a rest ih =>
    rcases List.mem_cons.mp ht with rfl | ht2
    · simp [List.find?]
    · have hnd2 : (rest.map Lit.var).Nodup := by
        rw [List.map_cons, List.nodup_cons] at hnd
        exact hnd.2
      have hne2 : (a.var == t.var) = false := by
        rw [beq_eq_false_iff_ne]
        intro he
        have hmem : t.var ∈ rest.map Lit.var := List.mem_map.mpr ⟨t, ht2, rfl⟩
        rw [List.map_cons, List.nodup_cons] at hnd
        exact hnd.1 (he ▸ hmem)
      rw [List.find?_cons_of_neg _ (by simp [hne2]), ih hnd2 ht2]

/-- Assignment that makes the distinguished literal of a duplicate-free list true
and every other literal of the list false. -/
def oneHot (l : List Lit) (h0 : Lit) : Nat → Bool := fun v =>
  match l.find? (fun s => s.var == v) with
  | some s => if s = h0 then s.pos else !s.pos
  | none => false

theorem oneHot_eval (l : List Lit) (hnd : (l.map Lit.var).Nodup) (h0 : Lit) (t : Lit)
    (ht : t ∈ l) : evalLit (oneHot l h0) t = decide (t = h0) := by
  have hf := find_var l hnd t ht
  have hv : oneHot l h0 t.var = if t = h0 then t.pos else !t.pos := by
    simp only [oneHot, hf]
  by_cases he : t = h0
  · subst he
    simp only [hv, if_pos rfl]
    cases hp : t.pos <;> simp [evalLit, hv, hp]
  · simp only [evalLit]
    cases hp : t.pos <;> simp [hv, he, hp]

theorem oneHot_count (l : List Lit) (hnd : (l.map Lit.var).Nodup) (h0 : Lit)
    (h0m : h0 ∈ l) : countTrue (oneHot l h0) l = 1 := by
  have : countTrue (oneHot l h0) l = l.countP (fun t => decide (t = h0)) := by
    apply List.countP_congr
    intro t ht
    simp [oneHot_eval l hnd h0 t ht]
  rw [this]
  have hnd2 : l.Nodup := by
    apply List.Nodup.of_map Lit.var hnd
  have := List.count_eq_one_of_mem hnd2 h0m
  simpa [List.count] using this

/-- Concrete assignment used by witnesses: variables 0 and 2 are true. -/
def wSigma : Nat → Bool := fun v => v == 0 || v == 2

/-- C3: commander_exactly_one returns one literal, the commander, and emits clauses such
that in every satisfying assignment of the emitted clauses the commander is true exactly
when at least one input literal is true, and at most one input literal is true overall. -/
theorem commander_semantics (N : Nat) (l : List Lit) (σ : Nat → Bool) (_hne : l ≠ [])
    (h : satisfies σ (commanderExactlyOne ⟨N, []⟩ l).2) :
    (evalLit σ (commanderExactlyOne ⟨N, []⟩ l).1 = true ↔ ∃ t ∈ l, evalLit σ t = true) ∧
    countTrue σ l ≤ 1 := by
  have he : commanderExactlyOne ⟨N, []⟩ l =
      commanderExactlyOneF (l.length + 1) ⟨N, []⟩ l := rfl
  rw [he] at h ⊢
  have hs := cEOF_sound (l.length + 1) ⟨N, []⟩ l σ h
  refine ⟨?_, hs.2⟩
  rw [hs.1, List.any_eq_true]

/-- Witness: commander_semantics at two fresh variables with an explicit assignment. -/
theorem commander_semantics_witness :
    (([(⟨0, true⟩ : Lit), ⟨1, true⟩] : List Lit) ≠ [] ∧
      satisfies wSigma (commanderExactlyOne ⟨2, []⟩ [⟨0, true⟩, ⟨1, true⟩]).2) ∧
    ((evalLit wSigma (commanderExactlyOne ⟨2, []⟩ [⟨0, true⟩, ⟨1, true⟩]).1 = true ↔
        ∃ t ∈ [(⟨0, true⟩ : Lit), ⟨1, true⟩], evalLit wSigma t = true) ∧
      countTrue wSigma [(⟨0, true⟩ : Lit), ⟨1, true⟩] ≤ 1) :=
  ⟨⟨by decide, by decide⟩,
    commander_semantics 2 [⟨0, true⟩, ⟨1, true⟩] wSigma (by decide) (by decide)⟩

/-- C1: for every non-empty list of input literals over distinct fresh variables,
add_exactly_one yields a satisfiable clause set, and every satisfying assignment of the
resulting formula makes exactly one input literal true. -/
theorem add_exactly_one_correct (N : Nat) (l : List Lit) (hne : l ≠ [])
    (hnd : (l.map Lit.var).Nodup) (hb : ∀ t ∈ l, t.var < N) :
    (∃ σ : Nat → Bool, satisfies σ (addExactlyOne ⟨N, []⟩ l)) ∧
    ∀ σ : Nat → Bool, satisfies σ (addExactlyOne ⟨N, []⟩ l) → countTrue σ l = 1 := by
  constructor
  · obtain ⟨h0, tail, rfl⟩ := List.exists_cons_of_ne_nil hne
    have hcnt : countTrue (oneHot (h0 :: tail) h0) (h0 :: tail) = 1 :=
      oneHot_count _ hnd h0 (List.mem_cons_self _ _)
    obtain ⟨σ2, hag, hsat, hev⟩ := cEOF_complete ((h0 :: tail).length + 1) ⟨N, []⟩
      (h0 :: tail) (oneHot (h0 :: tail) h0) hb (by omega)
    obtain ⟨_, _, Δ, hΔ, _⟩ := cEOF_inv ((h0 :: tail).length + 1) ⟨N, []⟩ (h0 :: tail)
    refine ⟨σ2, ?_⟩
    intro c hc
    have hc2 : c ∈ (commanderExactlyOne ⟨N, []⟩ (h0 :: tail)).2.clauses ++
        [[(commanderExactlyOne ⟨N, []⟩ (h0 :: tail)).1]] := hc
    have hΔ2 : (commanderExactlyOne ⟨N, []⟩ (h0 :: tail)).2.clauses = Δ := by
      have h3 : (commanderExactlyOneF ((h0 :: tail).length + 1) ⟨N, []⟩
          (h0 :: tail)).2.clauses = [] ++ Δ := hΔ
      simpa using h3
    rcases List.mem_append.mp hc2 with hcl | hcr
    · exact hsat Δ hΔ c (hΔ2 ▸ hcl)
    · rw [List.mem_singleton] at hcr
      subst hcr
      have hany : (h0 :: tail).any (evalLit (oneHot (h0 :: tail) h0)) = true := by
        rw [any_eq_countTrue_pos, hcnt]
        simp
      have hev2 : evalLit σ2 (commanderExactlyOne ⟨N, []⟩ (h0 :: tail)).1 = true := by
        have := hev
        rw [hany] at this
        exact this
      simp [evalClause, hev2]
  · intro σ hσ
    have hsub : satisfies σ (commanderExactlyOne ⟨N, []⟩ l).2 := by
      intro c hc
      apply hσ
      have : c ∈ (commanderExactlyOne ⟨N, []⟩ l).2.clauses ++
          [[(commanderExactlyOne ⟨N, []⟩ l).1]] := List.mem_append_left _ hc
      exact this
    have hs := cEOF_sound (l.length + 1) ⟨N, []⟩ l σ hsub
    have hcmd : evalClause σ [(commanderExactlyOne ⟨N, []⟩ l).1] = true := by
      apply hσ
      have : [(commanderExactlyOne ⟨N, []⟩ l).1] ∈
          (commanderExactlyOne ⟨N, []⟩ l).2.clauses ++
            [[(commanderExactlyOne ⟨N, []⟩ l).1]] :=
        List.mem_append_right _ (List.mem_singleton.mpr rfl)
      exact this
    have hcmd2 : evalLit σ (commanderExactlyOne ⟨N, []⟩ l).1 = true := by
      simpa [evalClause] using hcmd
    have hany : l.any (evalLit σ) = true := by
      have h1 := hs.1
      rw [← h1]
      exact hcmd2
    rw [any_eq_countTrue_pos] at hany
    have hpos : 0 < countTrue σ l := by simpa using hany
    have hle := hs.2
    omega

/-- Witness: add_exactly_one_correct at two fresh variables. -/
theorem add_exactly_one_correct_witness :
    (([(⟨0, true⟩ : Lit), ⟨1, true⟩] : List Lit) ≠ [] ∧
      (([(⟨0, true⟩ : Lit), ⟨1, true⟩] : List Lit).map Lit.var).Nodup ∧
      (∀ t ∈ ([(⟨0, true⟩ : Lit), ⟨1, true⟩] : List Lit), t.var < 2)) ∧
    ((∃ σ : Nat → Bool, satisfies σ (addExactlyOne ⟨2, []⟩ [⟨0, true⟩, ⟨1, true⟩])) ∧
      ∀ σ : Nat → Bool, satisfies σ (addExactlyOne ⟨2, []⟩ [⟨0, true⟩, ⟨1, true⟩]) →
        countTrue σ [(⟨0, true⟩ : Lit), ⟨1, true⟩] = 1) :=
  ⟨⟨by decide, by decide, by decide⟩,
    add_exactly_one_correct 2 [⟨0, true⟩, ⟨1, true⟩] (by decide) (by decide) (by decide)⟩

/-- C2: add_at_most_one emits, after the commander clauses, one clause
(commander OR NOT literal) for every original input literal; the all-false assignment
over the inputs extends to a satisfying assignment of the added clauses; and every
satisfying assignment makes at most one input literal true. -/
theorem add_at_most_one_correct (N : Nat) (l : List Lit) (hb : ∀ t ∈ l, t.var < N) :
    (addAtMostOne ⟨N, []⟩ l).clauses =
      (commanderExactlyOne ⟨N, []⟩ l).2.clauses ++
        l.map (fun t => [(commanderExactlyOne ⟨N, []⟩ l).1, t.not]) ∧
    (∀ σ : Nat → Bool, countTrue σ l = 0 →
      ∃ σ2, agreeBelow N σ2 σ ∧ satisfies σ2 (addAtMostOne ⟨N, []⟩ l)) ∧
    ∀ σ : Nat → Bool, satisfies σ (addAtMostOne ⟨N, []⟩ l) → countTrue σ l ≤ 1 := by
  have hclauses : (addAtMostOne ⟨N, []⟩ l).clauses =
      (commanderExactlyOne ⟨N, []⟩ l).2.clauses ++
        l.map (fun t => [(commanderExactlyOne ⟨N, []⟩ l).1, t.not]) :=
    addClauses_clauses _ _
  refine ⟨hclauses, ?_, ?_⟩
  · intro σ hcnt
    obtain ⟨σ2, hag, hsat, hev⟩ := cEOF_complete (l.length + 1) ⟨N, []⟩ l σ hb (by omega)
    obtain ⟨_, _, Δ, hΔ, _⟩ := cEOF_inv (l.length + 1) ⟨N, []⟩ l
    have hΔ2 : (commanderExactlyOne ⟨N, []⟩ l).2.clauses = Δ := by
      have h3 : (commanderExactlyOneF (l.length + 1) ⟨N, []⟩ l).2.clauses = [] ++ Δ := hΔ
      simpa using h3
    have hagN : agreeBelow N σ2 σ := hag
    refine ⟨σ2, hagN, ?_⟩
    intro c hc
    rw [hclauses] at hc
    rcases List.mem_append.mp hc with hcl | hcr
    · exact hsat Δ hΔ c (hΔ2 ▸ hcl)
    · obtain ⟨t, htl, rfl⟩ := List.mem_map.mp hcr
      have htf : evalLit σ t = false := (countTrue_eq_zero σ l).mp hcnt t htl
      have htf2 : evalLit σ2 t = false := by
        rw [evalLit_agree N σ2 σ t (hb t htl) hagN]
        exact htf
      simp [evalClause, evalLit_not, htf2]
  · intro σ hσ
    have hsub : satisfies σ (commanderExactlyOne ⟨N, []⟩ l).2 := by
      intro c hc
      apply hσ
      rw [hclauses]
      exact List.mem_append_left _ hc
    exact (cEOF_sound (l.length + 1) ⟨N, []⟩ l σ hsub).2

/-- Witness: add_at_most_one_correct at two fresh variables. -/
theorem add_at_most_one_correct_witness :
    (∀ t ∈ ([(⟨0, true⟩ : Lit), ⟨1, true⟩] : List Lit), t.var < 2) ∧
    ((addAtMostOne ⟨2, []⟩ [⟨0, true⟩, ⟨1, true⟩]).clauses =
      (commanderExactlyOne ⟨2, []⟩ [⟨0, true⟩, ⟨1, true⟩]).2.clauses ++
        ([(⟨0, true⟩ : Lit), ⟨1, true⟩] : List Lit).map
          (fun t => [(commanderExactlyOne ⟨2, []⟩ [⟨0, true⟩, ⟨1, true⟩]).1, t.not]) ∧
    (∀ σ : Nat → Bool, countTrue σ [(⟨0, true⟩ : Lit), ⟨1, true⟩] = 0 →
      ∃ σ2, agreeBelow 2 σ2 σ ∧
        satisfies σ2 (addAtMostOne ⟨2, []⟩ [⟨0, true⟩, ⟨1, true⟩])) ∧
    ∀ σ : Nat → Bool, satisfies σ (addAtMostOne ⟨2, []⟩ [⟨0, true⟩, ⟨1, true⟩]) →
      countTrue σ [(⟨0, true⟩ : Lit), ⟨1, true⟩] ≤ 1) :=
  ⟨by decide, add_at_most_one_correct 2 [⟨0, true⟩, ⟨1, true⟩] (by decide)⟩

/-! ## Claim C4: behaviour on empty input and invalid k -/

/-- C4 counterexample: exactly_k on the empty list with k = 1 does not fail fast; it
returns a formula (no error signal) made of two complementary unit clauses on the fresh
commander variable, which no assignment satisfies. -/
theorem empty_input_no_error_counterexample :
    (exactlyK ⟨0, []⟩ [] 1).isSome = true ∧
    unsat ((exactlyK ⟨0, []⟩ [] 1).getD ⟨0, []⟩) := by
  constructor
  · decide
  · have he : (exactlyK ⟨0, []⟩ [] 1).getD ⟨0, []⟩ =
        ⟨1, [[⟨0, false⟩], [⟨0, true⟩]]⟩ := by decide
    rw [he]
    intro σ hσ
    have h1 := hσ [(⟨0, false⟩ : Lit)] (by simp)
    have h2 := hσ [(⟨0, true⟩ : Lit)] (by simp)
    simp [evalClause, evalLit] at h1 h2
    rw [h1] at h2
    exact absurd h2 (by simp)

/-- C4 amended: on an empty input list, add_exactly_one (hence exactly_k with k = 1)
silently emits the two complementary unit clauses on a fresh commander variable, an
unsatisfiable formula, with no error signal; exactly_k with an empty list and k = 0
silently emits no clauses; and exactly_k with k greater than the list length fails only
by the underflowing index computation (a Rust panic, modelled as none), not by a
structured error value. -/
theorem empty_and_invalid_k_behavior :
    addExactlyOne ⟨0, []⟩ [] = ⟨1, [[⟨0, false⟩], [⟨0, true⟩]]⟩ ∧
    unsat (addExactlyOne ⟨0, []⟩ []) ∧
    exactlyK ⟨0, []⟩ [] 1 = some (addExactlyOne ⟨0, []⟩ []) ∧
    exactlyK ⟨0, []⟩ [] 0 = some ⟨0, []⟩ ∧
    exactlyK ⟨2, []⟩ [⟨0, true⟩, ⟨1, true⟩] 5 = none := by
  refine ⟨by decide, ?_, by decide, by decide, by decide⟩
  have he : addExactlyOne ⟨0, []⟩ [] = ⟨1, [[⟨0, false⟩], [⟨0, true⟩]]⟩ := by decide
  rw [he]
  intro σ hσ
  have h1 := hσ [(⟨0, false⟩ : Lit)] (by simp)
  have h2 := hσ [(⟨0, true⟩ : Lit)] (by simp)
  simp [evalClause, evalLit] at h1 h2
  rw [h1] at h2
  exact absurd h2 (by simp)

/-! ## Claim C5: the comparator gate -/

/-- The eight clauses of sort_swap in emission order. -/
def sortSwapClauses (in1 in2 out1 out2 : Lit) : List (List Lit) :=
  [[in1, in2, out1.not], [in1, in2, out2.not], [in1, in2.not, out1.not],
   [in1, in2.not, out2], [in1.not, in2, out1.not], [in1.not, in2, out2],
   [in1.not, in2.not, out1], [in1.not, in2.not, out2]]

/-- C5: sort_swap allocates exactly two fresh output literals (distinct from both
inputs) and emits exactly the 8 listed clauses, whose conjunction is, under every
assignment, equivalent to the first output being the AND and the second output being
the OR of the two inputs, in both directions. -/
theorem sort_swap_correct (F : CnfFormula) (a b : Lit)
    (ha : a.var < F.varCount) (hb : b.var < F.varCount) :
    (sortSwap F a b).2.varCount = F.varCount + 2 ∧
    (sortSwap F a b).1.1 = ⟨F.varCount, true⟩ ∧
    (sortSwap F a b).1.2 = ⟨F.varCount + 1, true⟩ ∧
    (sortSwap F a b).1.1.var ≠ a.var ∧ (sortSwap F a b).1.1.var ≠ b.var ∧
    (sortSwap F a b).1.2.var ≠ a.var ∧ (sortSwap F a b).1.2.var ≠ b.var ∧
    (sortSwapClauses a b ⟨F.varCount, true⟩ ⟨F.varCount + 1, true⟩).length = 8 ∧
    (sortSwap F a b).2.clauses =
      F.clauses ++ sortSwapClauses a b ⟨F.varCount, true⟩ ⟨F.varCount + 1, true⟩ ∧
    ∀ σ : Nat → Bool,
      satClauses σ (sortSwapClauses a b ⟨F.varCount, true⟩ ⟨F.varCount + 1, true⟩) ↔
        (evalLit σ (sortSwap F a b).1.1 = (evalLit σ a && evalLit σ b) ∧
          evalLit σ (sortSwap F a b).1.2 = (evalLit σ a || evalLit σ b)) := by
  have e1 : (sortSwap F a b).1.1.var = F.varCount := rfl
  have e2 : (sortSwap F a b).1.2.var = F.varCount + 1 := rfl
  refine ⟨rfl, rfl, rfl, by rw [e1]; omega, by rw [e1]; omega, by rw [e2]; omega,
    by rw [e2]; omega, rfl, ?_, ?_⟩
  · show (((((((((F.addClause _).addClause _).addClause _).addClause _).addClause
      _).addClause _).addClause _).addClause _)).clauses = _
    simp [CnfFormula.addClause, CnfFormula.newLit, sortSwapClauses, List.append_assoc]
  · intro σ
    have ho1 : evalLit σ ((sortSwap F a b).1.1) = σ F.varCount := by
      simp [sortSwap, CnfFormula.newLit, evalLit]
    have ho2 : evalLit σ ((sortSwap F a b).1.2) = σ (F.varCount + 1) := by
      simp [sortSwap, CnfFormula.newLit, evalLit]
    have hn1 : evalLit σ (Lit.not ⟨F.varCount, true⟩) = !(σ F.varCount) := by
      simp [evalLit, Lit.not]
    have hn2 : evalLit σ (Lit.not ⟨F.varCount + 1, true⟩) = !(σ (F.varCount + 1)) := by
      simp [evalLit, Lit.not]
    have hp1 : evalLit σ (⟨F.varCount, true⟩ : Lit) = σ F.varCount := by simp [evalLit]
    have hp2 : evalLit σ (⟨F.varCount + 1, true⟩ : Lit) = σ (F.varCount + 1) := by
      simp [evalLit]
    simp only [sortSwapClauses, satClauses, List.mem_cons, List.not_mem_nil, or_false,
      forall_eq_or_imp, forall_eq, evalClause, List.any_cons, List.any_nil,
      Bool.or_false, evalLit_not, ho1, ho2, hn1, hn2, hp1, hp2]
    generalize evalLit σ a = A
    generalize evalLit σ b = B
    generalize σ F.varCount = O1
    generalize σ (F.varCount + 1) = O2
    revert A B O1 O2
    decide

/-- Witness: sort_swap_correct at two fresh variables of a 2-variable formula. -/
theorem sort_swap_correct_witness :
    ((⟨0, true⟩ : Lit).var < 2 ∧ (⟨1, true⟩ : Lit).var < 2) ∧
    ((sortSwap ⟨2, []⟩ ⟨0, true⟩ ⟨1, true⟩).2.varCount = 2 + 2 ∧
      (sortSwap ⟨2, []⟩ ⟨0, true⟩ ⟨1, true⟩).1.1 = ⟨2, true⟩ ∧
      (sortSwap ⟨2, []⟩ ⟨0, true⟩ ⟨1, true⟩).1.2 = ⟨2 + 1, true⟩ ∧
      (sortSwap ⟨2, []⟩ ⟨0, true⟩ ⟨1, true⟩).1.1.var ≠ (⟨0, true⟩ : Lit).var ∧
      (sortSwap ⟨2, []⟩ ⟨0, true⟩ ⟨1, true⟩).1.1.var ≠ (⟨1, true⟩ : Lit).var ∧
      (sortSwap ⟨2, []⟩ ⟨0, true⟩ ⟨1, true⟩).1.2.var ≠ (⟨0, true⟩ : Lit).var ∧
      (sortSwap ⟨2, []⟩ ⟨0, true⟩ ⟨1, true⟩).1.2.var ≠ (⟨1, true⟩ : Lit).var ∧
      (sortSwapClauses ⟨0, true⟩ ⟨1, true⟩ ⟨2, true⟩ ⟨2 + 1, true⟩).length = 8 ∧
      (sortSwap ⟨2, []⟩ ⟨0, true⟩ ⟨1, true⟩).2.clauses =
        ([] : List (List Lit)) ++ sortSwapClauses ⟨0, true⟩ ⟨1, true⟩ ⟨2, true⟩ ⟨2 + 1, true⟩ ∧
      ∀ σ : Nat → Bool,
        satClauses σ (sortSwapClauses ⟨0, true⟩ ⟨1, true⟩ ⟨2, true⟩ ⟨2 + 1, true⟩) ↔
          (evalLit σ (sortSwap ⟨2, []⟩ ⟨0, true⟩ ⟨1, true⟩).1.1 =
              (evalLit σ ⟨0, true⟩ && evalLit σ ⟨1, true⟩) ∧
            evalLit σ (sortSwap ⟨2, []⟩ ⟨0, true⟩ ⟨1, true⟩).1.2 =
              (evalLit σ ⟨0, true⟩ || evalLit σ ⟨1, true⟩))) :=
  ⟨⟨by decide, by decide⟩,
    sort_swap_correct ⟨2, []⟩ ⟨0, true⟩ ⟨1, true⟩ (by decide) (by decide)⟩

/-! ## Claim C7: recursion structure of the commander encoder -/

/-- Twelve fresh positive literals. -/
def lits12 : List Lit := (List.range 12).map (fun i => ⟨i, true⟩)

/-- Six fresh positive literals. -/
def lits6 : List Lit := (List.range 6).map (fun i => ⟨i, true⟩)

/-- C7 counterexample: at N = 12 the commander encoder forms 3 chunks, not
ceil(12/3) = 4 groups as the claim states. -/
theorem commander_group_count_counterexample :
    (chunksOf (chunkSize lits12.length) lits12).length ≠ chunkSize lits12.length := by
  decide

/-- C7 amended: commander_exactly_one treats lists of fewer than 6 literals as one
atomic group with no recursion; for 6 or more it splits the inputs into consecutive
chunks of size ceil(N/3) — hence exactly 3 chunks, the last possibly smaller — encodes
each chunk recursively, and runs the direct encoding pass on the chunk commanders. -/
theorem commander_grouping_structure (F : CnfFormula) (l : List Lit)
    (h6 : 6 ≤ l.length) :
    commanderExactlyOne F l =
      encodeLevel ((chunksOf (chunkSize l.length) l).foldl
          (commanderStep (commanderExactlyOneF l.length)) ([], F)).2
        ((chunksOf (chunkSize l.length) l).foldl
          (commanderStep (commanderExactlyOneF l.length)) ([], F)).1 ∧
    (chunksOf (chunkSize l.length) l).length = 3 ∧
    (∀ ch ∈ chunksOf (chunkSize l.length) l, ch.length ≤ chunkSize l.length) ∧
    (chunksOf (chunkSize l.length) l).flatten = l ∧
    ∀ l2 : List Lit, l2.length < 6 → commanderExactlyOne F l2 = encodeLevel F l2 := by
  refine ⟨?_, chunksOf_length_three l h6, chunksF_sizes _ _ _,
    chunksOf_flatten _ l (chunkSize_facts l.length h6).1, ?_⟩
  · have he : commanderExactlyOne F l = commanderExactlyOneF (l.length + 1) F l := rfl
    rw [he, cEOF_succ_ge l.length F l (by omega)]
  · intro l2 h2
    have he : commanderExactlyOne F l2 = commanderExactlyOneF (l2.length + 1) F l2 := rfl
    rw [he, cEOF_succ_lt l2.length F l2 h2]

/-- Witness: commander_grouping_structure at six fresh variables. -/
theorem commander_grouping_structure_witness :
    6 ≤ lits6.length ∧
    (commanderExactlyOne ⟨6, []⟩ lits6 =
      encodeLevel ((chunksOf (chunkSize lits6.length) lits6).foldl
          (commanderStep (commanderExactlyOneF lits6.length)) ([], ⟨6, []⟩)).2
        ((chunksOf (chunkSize lits6.length) lits6).foldl
          (commanderStep (commanderExactlyOneF lits6.length)) ([], ⟨6, []⟩)).1 ∧
    (chunksOf (chunkSize lits6.length) lits6).length = 3 ∧
    (∀ ch ∈ chunksOf (chunkSize lits6.length) lits6, ch.length ≤ chunkSize lits6.length) ∧
    (chunksOf (chunkSize lits6.length) lits6).flatten = lits6 ∧
    ∀ l2 : List Lit, l2.length < 6 →
      commanderExactlyOne ⟨6, []⟩ l2 = encodeLevel ⟨6, []⟩ l2) :=
  ⟨by decide, commander_grouping_structure ⟨6, []⟩ lits6 (by decide)⟩

/-! ## Claims C6, C8, C9: the padding defect of the sorting network at 9 inputs -/

/-- Nine fresh positive literals. -/
def inputs9 : List Lit := (List.range 9).map (fun i => ⟨i, true⟩)

/-- Values of all 90 variables of the 9-input sorting-network run on the input that
sets variables 0 and 5 true: every comparator output variable carries the AND
respectively OR of its two input values, and the padding variable (index 9) is true,
so every emitted clause is satisfied. -/
def badVals : List Bool :=
  [true, false, false, false, false, true, false, false, false, true,
   false, true, false, true, false, false, false, true, false, false,
   false, true, false, false, true, true, false, true, false, true,
   false, false, false, false, false, true, false, false, false, false,
   false, false, false, true, false, false, false, false, false, true,
   false, false, false, false, false, false, false, true, false, false,
   false, true, false, false, false, false, false, true, false, true,
   false, false, false, false, true, true, false, true, false, true,
   false, true, false, false, false, false, false, true, false, true]

/-- The assignment built from badVals. -/
def badSigma : Nat → Bool := fun v => badVals.getD v false

set_option maxRecDepth 100000 in
/-- C6: the general recursive case of make_sorting_network is wrong: on 9 inputs with
exactly 2 true (variables 0 and 5), badSigma satisfies every emitted clause, yet output
position 6 is true while output position 7 is false — so the output is not sorted and
position 6 is true although fewer than 9 - 6 = 3 inputs are true. -/
theorem sorting_network_output_unsorted_at_nine :
    satisfies badSigma (makeSortingNetwork ⟨9, []⟩ inputs9).2 ∧
    countTrue badSigma inputs9 = 2 ∧
    evalLit badSigma ((makeSortingNetwork ⟨9, []⟩ inputs9).1.getD 6 defaultLit) = true ∧
    evalLit badSigma ((makeSortingNetwork ⟨9, []⟩ inputs9).1.getD 7 defaultLit) = false :=
  ⟨by decide, by decide, by decide, by decide⟩

/-- C8: for 9 inputs the padding loop adds padding_amount = 9 mod 4 = 1 forced-true
literal, so the padded list has 10 entries, which is not a multiple of 4. -/
theorem padding_not_multiple_of_four :
    paddingAmount inputs9.length = 1 ∧
    (padTrue ⟨9, []⟩ inputs9 (paddingAmount inputs9.length)).1.length = 10 ∧
    (inputs9.length + paddingAmount inputs9.length) % 4 ≠ 0 :=
  ⟨by decide, by decide, by decide⟩

set_option maxRecDepth 100000 in
/-- C9: exactly_k on 9 variables with k = 3 admits a satisfying assignment in which
only 2 of the variables are true: badSigma satisfies every clause of the produced
formula yet sets exactly 2 inputs true. -/
theorem exactly_k_admits_wrong_count :
    (exactlyK ⟨9, []⟩ inputs9 3).isSome = true ∧
    satisfies badSigma ((exactlyK ⟨9, []⟩ inputs9 3).getD ⟨0, []⟩) ∧
    countTrue badSigma inputs9 = 2 :=
  ⟨by decide, by decide, by decide⟩

/-! ## Claim C10: index safety of exactly_k -/

/-- C10: for at least 3 variables and k between 2 and N - 1 the two index computations
of exactly_k do not underflow and fall strictly within the sorting-network output,
which has exactly N elements, so the general branch cannot fail. -/
theorem exactly_k_indices_in_bounds (F : CnfFormula) (vars : List Lit) (k : Nat)
    (h3 : 3 ≤ vars.length) (hk2 : 2 ≤ k) (hkN : k ≤ vars.length - 1) :
    k + 1 ≤ vars.length ∧
    (makeSortingNetwork F vars).1.length = vars.length ∧
    vars.length - k - 1 < (makeSortingNetwork F vars).1.length ∧
    vars.length - k < (makeSortingNetwork F vars).1.length ∧
    (exactlyK F vars k).isSome = true := by
  have hlen := makeSortingNetwork_length F vars
  have h1 : k + 1 ≤ vars.length := by omega
  have h2 : vars.length - k - 1 < (makeSortingNetwork F vars).1.length := by omega
  have h2b : vars.length - k < (makeSortingNetwork F vars).1.length := by omega
  refine ⟨h1, hlen, h2, h2b, ?_⟩
  have hk0 : ¬(k = 0) := by omega
  have hkl : ¬(k = vars.length) := by omega
  have hk1 : ¬(k = 1) := by omega
  simp only [exactlyK, if_neg hk0, if_neg hkl, if_neg hk1]
  rw [dif_pos ⟨h2, h2b, h1⟩]
  rfl

/-- Three fresh positive literals. -/
def lits3 : List Lit := (List.range 3).map (fun i => ⟨i, true⟩)

/-- Witness: exactly_k index safety at three fresh variables and k = 2. -/
theorem exactly_k_indices_in_bounds_witness :
    (3 ≤ lits3.length ∧ 2 ≤ 2 ∧ 2 ≤ lits3.length - 1) ∧
    (2 + 1 ≤ lits3.length ∧
      (makeSortingNetwork ⟨3, []⟩ lits3).1.length = lits3.length ∧
      lits3.length - 2 - 1 < (makeSortingNetwork ⟨3, []⟩ lits3).1.length ∧
      lits3.length - 2 < (makeSortingNetwork ⟨3, []⟩ lits3).1.length ∧
      (exactlyK ⟨3, []⟩ lits3 2).isSome = true) :=
  ⟨⟨by decide, by decide, by decide⟩,
    exactly_k_indices_in_bounds ⟨3, []⟩ lits3 2 (by decide) (by decide) (by decide)⟩
